import Mathlib

/-!
# Build pod override mutator

A shallow embedding of `pkg/build/controller/build/overrides/overrides.go`:
the label merger `overrideLabel`, the container walker `applyPullPolicyToPod`
and the orchestrator `BuildOverrides.ApplyOverrides`, followed by theorems about them.

Go values are embedded as follows.
* A `map[string]string` held by the pod is an `Option GoMap`: `none` is the nil map,
  `some m` an allocated map. Reading a nil map finds nothing, writing to it panics.
* A map of the configuration is only ever measured with `len` and enumerated with `range`;
  it is given as the list of entries in the order `range` visits them. The keys of a Go
  map are pairwise distinct, which theorems assume where they need it.
* Slices are lists.
* The function mutates `*pod` in place and returns an `error`; the embedding returns the
  final state of the pod together with the error, or records a run-time panic.
-/

namespace Overrides

/-! ## Data model -/

/-- An allocated Go `map[string]string`. -/
abbrev GoMap := Finmap (fun _ : String => String)

/-- The two-valued read `v, ok := m[k]`; a nil map holds no key. -/
def mapLookup (m : Option GoMap) (k : String) : Option String :=
  match m with
  | none => none
  | some mm => mm.lookup k

/-- The statement `m[k] = v`; `none` is the panic of an assignment to an entry of a nil map. -/
def mapAssign (m : Option GoMap) (k v : String) : Option (Option GoMap) :=
  match m with
  | none => none
  | some mm => some (some (mm.insert k v))

/-- The type `buildv1.ImageLabel`. -/
structure ImageLabel where
  Name : String
  Value : String
  deriving DecidableEq, Repr

/-- The type `openshiftcontrolplanev1.ImageLabel`, the label type of the configuration. -/
structure ConfigImageLabel where
  Name : String
  Value : String
  deriving DecidableEq, Repr

/-- The type `corev1.PullPolicy`, a string type. -/
abbrev PullPolicy := String

/-- The constant `corev1.PullAlways`. -/
def PullAlways : PullPolicy := "Always"

/-- The constant `corev1.PullNever`. -/
def PullNever : PullPolicy := "Never"

/-- The constant `corev1.PullIfNotPresent`. -/
def PullIfNotPresent : PullPolicy := "IfNotPresent"

/-- The constant `corev1.LabelOSStable`. -/
def LabelOSStable : String := "kubernetes.io/os"

/-- The type `corev1.Toleration`; the mutator never looks inside one. -/
structure Toleration where
  Key : String
  Operator : String
  Value : String
  Effect : String
  TolerationSeconds : Option Int
  deriving DecidableEq, Repr

/-- The fields of `corev1.Container` that the mutator reads or writes, and two it must keep. -/
structure Container where
  Name : String
  Image : String
  ImagePullPolicy : PullPolicy
  deriving DecidableEq, Repr

/-- The type `buildv1.DockerBuildStrategy`. -/
structure DockerBuildStrategy where
  From : String
  ForcePull : Bool
  deriving DecidableEq, Repr

/-- The type `buildv1.SourceBuildStrategy`. -/
structure SourceBuildStrategy where
  From : String
  ForcePull : Bool
  deriving DecidableEq, Repr

/-- The type `buildv1.CustomBuildStrategy`. -/
structure CustomBuildStrategy where
  From : String
  ForcePull : Bool
  deriving DecidableEq, Repr

/-- The type `buildv1.BuildStrategy`: three nullable sub-records. -/
structure BuildStrategy where
  DockerStrategy : Option DockerBuildStrategy
  SourceStrategy : Option SourceBuildStrategy
  CustomStrategy : Option CustomBuildStrategy
  deriving DecidableEq, Repr

/-- The type `buildv1.BuildOutput`. -/
structure BuildOutput where
  ImageLabels : List ImageLabel
  deriving DecidableEq, Repr

/-- The type `buildv1.BuildSpec`. -/
structure BuildSpec where
  Strategy : BuildStrategy
  Output : BuildOutput
  deriving DecidableEq, Repr

/-- The type `buildv1.Build`. -/
structure Build where
  Namespace : String
  Name : String
  Spec : BuildSpec
  deriving DecidableEq, Repr

/-- A Go `error` value. -/
structure Error where
  msg : String
  deriving DecidableEq, Repr

/-- Modelled from the spec: the content of the pod's carrier field, which the source reaches
only through the codec of package `common`. An encoded build is abstracted to the build it
decodes to; `malformed` is content that does not decode. -/
inductive Carrier where
  | absent
  | malformed (raw : String)
  | encoded (build : Build)
  deriving DecidableEq, Repr

/-- The type `corev1.PodSpec`. -/
structure PodSpec where
  NodeSelector : Option GoMap
  Tolerations : List Toleration
  InitContainers : List Container
  Containers : List Container

/-- The type `corev1.Pod`, with the carrier of the embedded build as a field of its own. -/
structure Pod where
  Namespace : String
  Name : String
  Annotations : Option GoMap
  Spec : PodSpec
  Carrier : Carrier

/-- The type `openshiftcontrolplanev1.BuildOverridesConfig`. `NodeSelector` and `Annotations`
are the entries of the configured maps in the order `range` enumerates them. -/
structure BuildOverridesConfig where
  ForcePull : Option Bool
  ImageLabels : List ConfigImageLabel
  NodeSelector : List (String × String)
  Annotations : List (String × String)
  Tolerations : List Toleration

/-- The type `BuildOverrides`; `Config` is a pointer and may be nil. -/
structure BuildOverrides where
  Config : Option BuildOverridesConfig

/-- The two functions of package `common` that `ApplyOverrides` calls. Their code is not part
of this file: they are a parameter of the embedding. `GetBuildFromPod` only reads the pod.
`SetBuildInPod` mutates the pod it is given and returns an error, so it yields the pod after
the call and the error. -/
structure BuildCodec where
  GetBuildFromPod : Pod → Except Error Build
  SetBuildInPod : Pod → Build → Pod × Option Error

/-- How a call of `ApplyOverrides` ends: it returns, leaving `pod` behind with the error
`err` (`none` is the nil error), or it panics. -/
inductive Outcome where
  | returned (pod : Pod) (err : Option Error)
  | panicked

/-! ## Library functions -/

/-- Go's `unicode.IsSpace`, on a code point. -/
def isSpace (c : Char) : Bool :=
  let n := c.toNat
  n = 9 || n = 10 || n = 11 || n = 12 || n = 13 || n = 32 || n = 0x85 || n = 0xA0 ||
  n = 0x1680 || (0x2000 ≤ n && n ≤ 0x200a) || n = 0x2028 || n = 0x2029 || n = 0x202f ||
  n = 0x205f || n = 0x3000

/-- Go's `strings.TrimSpace`: the string without its leading and trailing white space. -/
def TrimSpace (s : String) : String :=
  String.mk ((s.data.dropWhile isSpace).reverse.dropWhile isSpace).reverse

/-! ## The source functions -/

/-- The loop of `overrideLabel` (lines 111-118) from entry `i` on: `labels` are the entries
not yet visited, `found` the flag so far. Yields the entries as the loop leaves them and the
final flag. -/
def overrideLabelLoop (overridingLabel : ImageLabel) :
    List ImageLabel → Bool → List ImageLabel × Bool
  | [], found => ([], found)
  | lbl :: rest, found =>
    if lbl.Name = overridingLabel.Name then
      let r := overrideLabelLoop overridingLabel rest true
      (overridingLabel :: r.1, r.2)
    else
      let r := overrideLabelLoop overridingLabel rest found
      (lbl :: r.1, r.2)

/-- The function `overrideLabel` (lines 110-122); the slice behind the pointer is passed in
and the slice left behind it is returned. -/
def overrideLabel (overridingLabel : ImageLabel) (buildLabels : List ImageLabel) :
    List ImageLabel :=
  let r := overrideLabelLoop overridingLabel buildLabels false
  if !r.2 then r.1 ++ [overridingLabel] else r.1

/-- One loop of `applyPullPolicyToPod` (lines 99-102, and 103-106): for every index `i` of
the slice, in order, the statement `containers[i].ImagePullPolicy = pullPolicy`. The index
comes from `range` over the same slice, so it is always in range; the embedding leaves the
slice alone for an index out of range. -/
def setPullPolicies (pullPolicy : PullPolicy) (containers : List Container) : List Container :=
  (List.range containers.length).foldl (fun cs i =>
    match cs[i]? with
    | some c => cs.set i { c with ImagePullPolicy := pullPolicy }
    | none => cs) containers

/-- The function `applyPullPolicyToPod` (lines 98-108). -/
def applyPullPolicyToPod (pod : Pod) (pullPolicy : PullPolicy) : Pod × Option Error :=
  let pod :=
    { pod with Spec.InitContainers := setPullPolicies pullPolicy pod.Spec.InitContainers }
  let pod := { pod with Spec.Containers := setPullPolicies pullPolicy pod.Spec.Containers }
  (pod, none)

/-- Lines 32-55 of `ApplyOverrides`: the ForcePull override. Yields the pod, the in-memory
build and the error of the early return of line 49, if it is taken. -/
def applyForcePull (forcePull : Option Bool) (pod : Pod) (build : Build) :
    Pod × Build × Option Error :=
  match forcePull with
  | none => (pod, build, none)
  | some fp =>
    let build := match build.Spec.Strategy.DockerStrategy with
      | some d => { build with Spec.Strategy.DockerStrategy := some { d with ForcePull := fp } }
      | none => build
    let build := match build.Spec.Strategy.SourceStrategy with
      | some s => { build with Spec.Strategy.SourceStrategy := some { s with ForcePull := fp } }
      | none => build
    match build.Spec.Strategy.CustomStrategy with
    | none => (pod, build, none)
    | some c =>
      let pullPolicy := if fp then PullAlways else PullIfNotPresent
      match applyPullPolicyToPod pod pullPolicy with
      | (pod, some err) => (pod, build, some err)
      | (pod, none) =>
        (pod, { build with Spec.Strategy.CustomStrategy := some { c with ForcePull := fp } },
          none)

/-- Lines 57-65 of `ApplyOverrides`: the label overrides, in configuration order. -/
def applyImageLabels (imageLabels : List ConfigImageLabel) (build : Build) : Build :=
  imageLabels.foldl (fun build lbl =>
    let externalLabel : ImageLabel := { Name := lbl.Name, Value := lbl.Value }
    { build with Spec.Output.ImageLabels :=
        overrideLabel externalLabel build.Spec.Output.ImageLabels }) build

/-- Lines 67-76 of `ApplyOverrides`: the node selector override; `none` is a panic. -/
def applyNodeSelector (nodeSelector : List (String × String)) (pod : Pod) : Option Pod :=
  let pod := if nodeSelector.length ≠ 0 ∧ pod.Spec.NodeSelector.isNone
    then { pod with Spec.NodeSelector := some ∅ } else pod
  nodeSelector.foldlM (fun pod kv =>
    if TrimSpace kv.1 = LabelOSStable then some pod
    else (mapAssign pod.Spec.NodeSelector kv.1 kv.2).map
      (fun m => { pod with Spec.NodeSelector := m })) pod

/-- Lines 78-84 of `ApplyOverrides`: the annotation override; `none` is a panic. -/
def applyAnnotations (annotations : List (String × String)) (pod : Pod) : Option Pod :=
  let pod := if annotations.length ≠ 0 ∧ pod.Annotations.isNone
    then { pod with Annotations := some ∅ } else pod
  annotations.foldlM (fun pod kv =>
    (mapAssign pod.Annotations kv.1 kv.2).map (fun m => { pod with Annotations := m })) pod

/-- Lines 86-93 of `ApplyOverrides`: the toleration override. -/
def applyTolerations (tolerations : List Toleration) (pod : Pod) : Pod :=
  if tolerations.length ≠ 0 then
    let pod := { pod with Spec.Tolerations := [] }
    tolerations.foldl (fun pod toleration =>
      { pod with Spec.Tolerations := pod.Spec.Tolerations ++ [toleration] }) pod
  else pod

/-- The method `BuildOverrides.ApplyOverrides` (lines 20-96). -/
def ApplyOverrides (codec : BuildCodec) (b : BuildOverrides) (pod : Pod) : Outcome :=
  match b.Config with
  | none => .returned pod none
  | some cfg =>
    match codec.GetBuildFromPod pod with
    | .error err => .returned pod (some err)
    | .ok build =>
      match applyForcePull cfg.ForcePull pod build with
      | (pod, _, some err) => .returned pod (some err)
      | (pod, build, none) =>
        let build := applyImageLabels cfg.ImageLabels build
        match applyNodeSelector cfg.NodeSelector pod with
        | none => .panicked
        | some pod =>
          match applyAnnotations cfg.Annotations pod with
          | none => .panicked
          | some pod =>
            let pod := applyTolerations cfg.Tolerations pod
            let r := codec.SetBuildInPod pod build
            .returned r.1 r.2

/-! ## A codec for concrete runs -/

/-- Modelled from the spec: `GetBuildFromPod` of package `common`, whose code is not part of
this file. It reads the carrier field; it fails with a CarrierMissing error when the carrier
is absent and with a CarrierMalformed error when it is present but undecodable. -/
def GetBuildFromPod (pod : Pod) : Except Error Build :=
  match pod.Carrier with
  | .absent => .error { msg := "CarrierMissing" }
  | .malformed _ => .error { msg := "CarrierMalformed" }
  | .encoded build => .ok build

/-- Modelled from the spec: `SetBuildInPod` of package `common`, whose code is not part of
this file. It writes an encoding of the build into the pod's carrier field, replacing any
prior content. The wire format is abstracted away, so this codec has no EncodeFailure. -/
def SetBuildInPod (pod : Pod) (build : Build) : Pod × Option Error :=
  ({ pod with Carrier := .encoded build }, none)

/-- The codec of the two functions above. -/
def specCodec : BuildCodec :=
  { GetBuildFromPod := GetBuildFromPod, SetBuildInPod := SetBuildInPod }

/-! ## Properties of a codec -/

/-- The round trip of spec section 4.2: a build that `SetBuildInPod` has written without an
error is the build `GetBuildFromPod` reads back. -/
def BuildCodec.RoundTrip (codec : BuildCodec) : Prop :=
  ∀ pod build, (codec.SetBuildInPod pod build).2 = none →
    codec.GetBuildFromPod (codec.SetBuildInPod pod build).1 = .ok build

/-- The frame of spec section 4.2: `SetBuildInPod` writes the carrier field of the pod and
nothing else. -/
def BuildCodec.WritesCarrierOnly (codec : BuildCodec) : Prop :=
  ∀ pod build, (codec.SetBuildInPod pod build).1 =
    { pod with Carrier := (codec.SetBuildInPod pod build).1.Carrier }

/-! ## Closed forms used in the proofs -/

/-- What the label overrides `O`, taken in order, make of one entry `e` that is already in
the list: each override with the name of the entry replaces it. -/
def overrideEntry (O : List ConfigImageLabel) (e : ImageLabel) : ImageLabel :=
  O.foldl (fun e o => if e.Name = o.Name then { Name := o.Name, Value := o.Value } else e) e

/-- The label list that lines 57-65 leave behind, as a fold over the list alone. -/
def mergeLabels (O : List ConfigImageLabel) (L : List ImageLabel) : List ImageLabel :=
  O.foldl (fun ls lbl => overrideLabel { Name := lbl.Name, Value := lbl.Value } ls) L

/-- The node selector that lines 67-76 leave behind when they do not panic: nothing changes
for an empty override, otherwise every entry whose trimmed key is not the reserved one is
written, in order, into the allocated map. -/
def nodeSelectorAfter (O : List (String × String)) (N : Option GoMap) : Option GoMap :=
  match O with
  | [] => N
  | _ :: _ => some (O.foldl (fun m kv =>
      if TrimSpace kv.1 = LabelOSStable then m else m.insert kv.1 kv.2) (N.getD ∅))

/-- The annotations that lines 78-84 leave behind when they do not panic. -/
def annotationsAfter (O : List (String × String)) (A : Option GoMap) : Option GoMap :=
  match O with
  | [] => A
  | _ :: _ => some (O.foldl (fun m kv => m.insert kv.1 kv.2) (A.getD ∅))

/-- The tolerations that lines 86-93 leave behind. -/
def tolerationsAfter (O : List Toleration) (T : List Toleration) : List Toleration :=
  match O with
  | [] => T
  | _ :: _ => O

/-- The in-memory build when line 95 is reached: the decoded build with the ForcePull and
the label overrides applied. -/
def buildAtEncode (cfg : BuildOverridesConfig) (pod : Pod) (build : Build) : Build :=
  applyImageLabels cfg.ImageLabels (applyForcePull cfg.ForcePull pod build).2.1

/-- The pod when line 95 is reached. -/
def podAtEncode (cfg : BuildOverridesConfig) (pod : Pod) (build : Build) : Pod :=
  let p := (applyForcePull cfg.ForcePull pod build).1
  { p with
    Annotations := annotationsAfter cfg.Annotations p.Annotations
    Spec := { p.Spec with
      NodeSelector := nodeSelectorAfter cfg.NodeSelector p.Spec.NodeSelector
      Tolerations := tolerationsAfter cfg.Tolerations p.Spec.Tolerations } }

/-! ## Concrete inputs -/

/-- A build for concrete runs, with the given strategy and output labels. -/
def buildWith (strategy : BuildStrategy) (labels : List ImageLabel) : Build :=
  { Namespace := "ns", Name := "app-1",
    Spec := { Strategy := strategy, Output := { ImageLabels := labels } } }

/-- The Docker strategy of the concrete runs, with ForcePull off. -/
def dockerOnly : BuildStrategy :=
  { DockerStrategy := some { From := "base", ForcePull := false },
    SourceStrategy := none, CustomStrategy := none }

/-- The Custom strategy of the concrete runs, with ForcePull on. -/
def customOnly : BuildStrategy :=
  { DockerStrategy := none, SourceStrategy := none,
    CustomStrategy := some { From := "builder", ForcePull := true } }

/-- Three tolerations for concrete runs. -/
def tolerationT1 : Toleration :=
  { Key := "t1", Operator := "Exists", Value := "", Effect := "NoSchedule",
    TolerationSeconds := none }

def tolerationT2 : Toleration :=
  { Key := "t2", Operator := "Equal", Value := "x", Effect := "NoExecute",
    TolerationSeconds := some 30 }

def tolerationT3 : Toleration :=
  { Key := "t3", Operator := "Exists", Value := "", Effect := "NoSchedule",
    TolerationSeconds := none }

/-- A pod for concrete runs that carries `build`: annotations `a=1`, no node selector, the
tolerations T1 and T2, two init containers and one regular container with three different
pull policies. -/
def podCarrying (build : Build) : Pod :=
  { Namespace := "ns", Name := "app-1-build",
    Annotations := some (Finmap.singleton "a" "1"),
    Spec := {
      NodeSelector := none
      Tolerations := [tolerationT1, tolerationT2]
      InitContainers := [{ Name := "git-clone", Image := "builder", ImagePullPolicy := "Always" },
        { Name := "manage-dockerfile", Image := "builder", ImagePullPolicy := "Never" }]
      Containers := [{ Name := "build", Image := "builder", ImagePullPolicy := "" }] },
    Carrier := .encoded build }

/-- A configuration that overrides nothing. -/
def emptyConfig : BuildOverridesConfig :=
  { ForcePull := none, ImageLabels := [], NodeSelector := [], Annotations := [],
    Tolerations := [] }

/-- The labels of scenario S4 before the merge. -/
def labelsS4 : List ImageLabel :=
  [{ Name := "A", Value := "1" }, { Name := "B", Value := "2" }, { Name := "A", Value := "3" }]

/-- The override labels of scenario S4. -/
def overridesS4 : List ConfigImageLabel :=
  [{ Name := "A", Value := "9" }, { Name := "C", Value := "7" }]

/-- The labels of scenario S4 after the merge. -/
def mergedS4 : List ImageLabel :=
  [{ Name := "A", Value := "9" }, { Name := "B", Value := "2" }, { Name := "A", Value := "9" },
    { Name := "C", Value := "7" }]

/-- The override node selector of scenario S5. -/
def nodeSelectorS5 : List (String × String) :=
  [("  kubernetes.io/os  ", "linux"), ("zone", "east")]

/-- Labels with pairwise distinct names, before the merge. -/
def labelsUnique : List ImageLabel :=
  [{ Name := "A", Value := "1" }, { Name := "B", Value := "2" }]

/-- The labels `labelsUnique` after the overrides of scenario S4. -/
def mergedUnique : List ImageLabel :=
  [{ Name := "A", Value := "9" }, { Name := "B", Value := "2" }, { Name := "C", Value := "7" }]

/-- A pod for concrete runs whose node selector already pins the operating system. -/
def podPinned (build : Build) : Pod :=
  { podCarrying build with
    Spec.NodeSelector := some (Finmap.singleton "kubernetes.io/os" "windows") }

/-- The pod of scenario S3 after the call: every container pulls `IfNotPresent` and the
Custom strategy of the carried build has ForcePull off. -/
def podS3After : Pod :=
  { podCarrying (buildWith customOnly []) with
    Spec.InitContainers :=
      [{ Name := "git-clone", Image := "builder", ImagePullPolicy := "IfNotPresent" },
        { Name := "manage-dockerfile", Image := "builder", ImagePullPolicy := "IfNotPresent" }]
    Spec.Containers := [{ Name := "build", Image := "builder", ImagePullPolicy := "IfNotPresent" }]
    Carrier := .encoded (buildWith
      { DockerStrategy := none, SourceStrategy := none,
        CustomStrategy := some { From := "builder", ForcePull := false } } []) }

/-- The pod of scenario S2 after the call: only the carried build has changed. -/
def podS2After : Pod :=
  { podCarrying (buildWith dockerOnly []) with
    Carrier := .encoded (buildWith
      { DockerStrategy := some { From := "base", ForcePull := true },
        SourceStrategy := none, CustomStrategy := none } []) }

/-- A configuration that sets every override. -/
def configS9 : BuildOverridesConfig :=
  { ForcePull := some true, ImageLabels := overridesS4, NodeSelector := nodeSelectorS5,
    Annotations := [("a", "2"), ("owner", "admin")], Tolerations := [tolerationT3] }

/-- The pod carrying a Docker build with the labels of scenario S4, after `configS9`. -/
def podS9After : Pod :=
  { podCarrying (buildWith dockerOnly labelsS4) with
    Annotations := some (((Finmap.singleton "a" "1").insert "a" "2").insert "owner" "admin")
    Spec.NodeSelector := some (Finmap.singleton "zone" "east")
    Spec.Tolerations := [tolerationT3]
    Carrier := .encoded (buildWith
      { DockerStrategy := some { From := "base", ForcePull := true },
        SourceStrategy := none, CustomStrategy := none } mergedS4) }

/-- A pod that carries no build. -/
def podWithoutBuild : Pod :=
  { podCarrying (buildWith dockerOnly []) with Carrier := .absent }

/-- A strategy with two variants populated at once, Docker and Custom. -/
def dockerAndCustom : BuildStrategy :=
  { DockerStrategy := some { From := "base", ForcePull := false },
    SourceStrategy := none,
    CustomStrategy := some { From := "builder", ForcePull := false } }

/-- The pod carrying a build with the strategy `dockerAndCustom`, after ForcePull true. -/
def podBothAfter : Pod :=
  { podCarrying (buildWith dockerAndCustom []) with
    Spec.InitContainers :=
      [{ Name := "git-clone", Image := "builder", ImagePullPolicy := "Always" },
        { Name := "manage-dockerfile", Image := "builder", ImagePullPolicy := "Always" }]
    Spec.Containers := [{ Name := "build", Image := "builder", ImagePullPolicy := "Always" }]
    Carrier := .encoded (buildWith
      { DockerStrategy := some { From := "base", ForcePull := true },
        SourceStrategy := none,
        CustomStrategy := some { From := "builder", ForcePull := true } } []) }

/-- The override node selector of scenario S5, enumerated in the other order. -/
def nodeSelectorS5Swapped : List (String × String) :=
  [("zone", "east"), ("  kubernetes.io/os  ", "linux")]

/-- What the label loop has appended after the pre-existing entries when it has run over the
overrides `O`, given the names `seen` that the list holds when the loop starts: an override
with a new name is appended and then updated by the later overrides. A closed form used in
the proofs. -/
def appendedLabels : List ConfigImageLabel → List String → List ImageLabel
  | [], _ => []
  | o :: O, seen =>
    if o.Name ∈ seen then appendedLabels O seen
    else overrideEntry O { Name := o.Name, Value := o.Value } ::
      appendedLabels O (seen ++ [o.Name])

/-- The distinct names of a list of names, each at the place of its first occurrence. -/
def distinctNames : List String → List String
  | [] => []
  | n :: ns => n :: (distinctNames ns).filter (fun x => decide (x ≠ n))

/-- The value of the last entry of `O` with the name `n`, if `O` has such an entry. -/
def lastValue (O : List ConfigImageLabel) (n : String) : Option String :=
  ((O.filter (fun o => decide (o.Name = n))).getLast?).map (fun o => o.Value)

/-- Following the words of the claim about the appended labels: one entry for each distinct
name of `O` that does not occur in `L`, in the order of the first occurrences of these names
in `O`, each with the value of the last entry of `O` with that name. -/
def appendedBySpec (O : List ConfigImageLabel) (L : List ImageLabel) : List ImageLabel :=
  ((distinctNames (O.map (fun o => o.Name))).filter
      (fun n => decide (n ∉ L.map (fun e => e.Name)))).filterMap
    (fun n => (lastValue O n).map (fun v => { Name := n, Value := v }))

/-! ## The label merger -/

theorem overrideLabelLoop_fst (l : ImageLabel) (ls : List ImageLabel) (found : Bool) :
    (overrideLabelLoop l ls found).1 = ls.map (fun e => if e.Name = l.Name then l else e) := by
  induction ls generalizing found with
  | nil => rfl
  | cons e rest ih =>
    by_cases h : e.Name = l.Name <;> simp [overrideLabelLoop, h, ih]

theorem overrideLabelLoop_snd (l : ImageLabel) (ls : List ImageLabel) (found : Bool) :
    (overrideLabelLoop l ls found).2 = (found || ls.any (fun e => decide (e.Name = l.Name))) := by
  induction ls generalizing found with
  | nil => simp [overrideLabelLoop]
  | cons e rest ih =>
    by_cases h : e.Name = l.Name <;> simp [overrideLabelLoop, h, ih]

theorem overrideLabel_of_mem (l : ImageLabel) (ls : List ImageLabel)
    (h : ∃ e ∈ ls, e.Name = l.Name) :
    overrideLabel l ls = ls.map (fun e => if e.Name = l.Name then l else e) := by
  have hany : ls.any (fun e => decide (e.Name = l.Name)) = true := by
    simpa [List.any_eq_true] using h
  simp [overrideLabel, overrideLabelLoop_fst, overrideLabelLoop_snd, hany]

theorem overrideLabel_of_not_mem (l : ImageLabel) (ls : List ImageLabel)
    (h : ∀ e ∈ ls, e.Name ≠ l.Name) :
    overrideLabel l ls = ls ++ [l] := by
  have hany : ls.any (fun e => decide (e.Name = l.Name)) = false := by
    simpa [List.any_eq_false] using h
  have hmap : ls.map (fun e => if e.Name = l.Name then l else e) = ls := by
    conv_rhs => rw [← List.map_id ls]
    apply List.map_congr_left
    intro e he
    simp [h e he]
  simp [overrideLabel, overrideLabelLoop_fst, overrideLabelLoop_snd, hany, hmap]

theorem overrideLabel_getElem? (l : ImageLabel) (ls : List ImageLabel) (i : Nat)
    (h : i < ls.length) :
    (overrideLabel l ls)[i]? = some (if ls[i].Name = l.Name then l else ls[i]) := by
  by_cases hm : ∃ e ∈ ls, e.Name = l.Name
  · rw [overrideLabel_of_mem l ls hm]
    simp [List.getElem?_map, List.getElem?_eq_getElem h]
  · have hn : ∀ e ∈ ls, e.Name ≠ l.Name := by
      intro e he hc
      exact hm ⟨e, he, hc⟩
    rw [overrideLabel_of_not_mem l ls hn, List.getElem?_append_left h,
      List.getElem?_eq_getElem h]
    simp [hn ls[i] (List.getElem_mem h)]

theorem overrideLabel_length_le (l : ImageLabel) (ls : List ImageLabel) :
    ls.length ≤ (overrideLabel l ls).length := by
  by_cases hm : ∃ e ∈ ls, e.Name = l.Name
  · rw [overrideLabel_of_mem l ls hm]; simp
  · have hn : ∀ e ∈ ls, e.Name ≠ l.Name := by
      intro e he hc
      exact hm ⟨e, he, hc⟩
    rw [overrideLabel_of_not_mem l ls hn]; simp

/-- C1: `overrideLabel l ls` replaces every entry of `ls` named like `l` by `l`, keeps every
other entry where it is, and appends `l` once exactly when no entry is named like `l`: the
length is that of `ls` when an entry matches and one more when none does, and then the
result is `ls` followed by `l`. -/
theorem overrideLabel_contract (l : ImageLabel) (ls : List ImageLabel) :
    (∀ i (h : i < ls.length),
      (overrideLabel l ls)[i]? = some (if ls[i].Name = l.Name then l else ls[i])) ∧
    ((∃ e ∈ ls, e.Name = l.Name) → (overrideLabel l ls).length = ls.length) ∧
    ((¬ ∃ e ∈ ls, e.Name = l.Name) →
      (overrideLabel l ls).length = ls.length + 1 ∧ overrideLabel l ls = ls ++ [l]) := by
  refine ⟨fun i h => overrideLabel_getElem? l ls i h, ?_, ?_⟩
  · intro hm
    rw [overrideLabel_of_mem l ls hm]; simp
  · intro hm
    have hn : ∀ e ∈ ls, e.Name ≠ l.Name := by
      intro e he hc
      exact hm ⟨e, he, hc⟩
    rw [overrideLabel_of_not_mem l ls hn]; simp

/-! ## The label overrides of `ApplyOverrides` -/

theorem mergeLabels_cons (o : ConfigImageLabel) (O : List ConfigImageLabel)
    (L : List ImageLabel) :
    mergeLabels (o :: O) L = mergeLabels O (overrideLabel { Name := o.Name, Value := o.Value } L) :=
  rfl

theorem applyImageLabels_eq (O : List ConfigImageLabel) (build : Build) :
    applyImageLabels O build =
      { build with Spec.Output.ImageLabels := mergeLabels O build.Spec.Output.ImageLabels } := by
  induction O generalizing build with
  | nil => rfl
  | cons o O ih =>
    simp only [applyImageLabels, List.foldl_cons] at ih ⊢
    rw [ih]
    rfl

theorem mergeLabels_length_le (O : List ConfigImageLabel) (L : List ImageLabel) :
    L.length ≤ (mergeLabels O L).length := by
  induction O generalizing L with
  | nil => exact Nat.le_refl _
  | cons o O ih =>
    rw [mergeLabels_cons]
    exact Nat.le_trans (overrideLabel_length_le _ L) (ih _)

theorem overrideEntry_cons (o : ConfigImageLabel) (O : List ConfigImageLabel) (e : ImageLabel) :
    overrideEntry (o :: O) e =
      overrideEntry O (if e.Name = o.Name then { Name := o.Name, Value := o.Value } else e) :=
  rfl

theorem overrideEntry_name (O : List ConfigImageLabel) (e : ImageLabel) :
    (overrideEntry O e).Name = e.Name := by
  induction O generalizing e with
  | nil => rfl
  | cons o O ih =>
    rw [overrideEntry_cons, ih]
    by_cases h : e.Name = o.Name <;> simp [h]

theorem overrideEntry_of_not_mem (O : List ConfigImageLabel) (e : ImageLabel)
    (h : ∀ o ∈ O, o.Name ≠ e.Name) : overrideEntry O e = e := by
  induction O generalizing e with
  | nil => rfl
  | cons o O ih =>
    have ho : ¬ e.Name = o.Name := fun hc => h o (List.mem_cons_self _ _) hc.symm
    rw [overrideEntry_cons, if_neg ho]
    exact ih e (fun x hx => h x (List.mem_cons_of_mem _ hx))

theorem overrideEntry_append (O₁ O₂ : List ConfigImageLabel) (e : ImageLabel) :
    overrideEntry (O₁ ++ O₂) e = overrideEntry O₂ (overrideEntry O₁ e) := by
  simp [overrideEntry, List.foldl_append]

theorem overrideEntry_last (O₁ O₂ : List ConfigImageLabel) (o : ConfigImageLabel)
    (e : ImageLabel) (ho : o.Name = e.Name) (h : ∀ x ∈ O₂, x.Name ≠ e.Name) :
    overrideEntry (O₁ ++ o :: O₂) e = { Name := e.Name, Value := o.Value } := by
  rw [overrideEntry_append, overrideEntry_cons, overrideEntry_name, if_pos ho.symm,
    overrideEntry_of_not_mem]
  · rw [ho]
  · intro x hx
    simpa [ho] using h x hx

theorem mergeLabels_getElem? (O : List ConfigImageLabel) (L : List ImageLabel) (i : Nat)
    (h : i < L.length) :
    (mergeLabels O L)[i]? = some (overrideEntry O L[i]) := by
  induction O generalizing L with
  | nil => simp [mergeLabels, overrideEntry, List.getElem?_eq_getElem h]
  | cons o O ih =>
    have hlen : i < (overrideLabel { Name := o.Name, Value := o.Value } L).length :=
      Nat.lt_of_lt_of_le h (overrideLabel_length_le _ L)
    have hstep := overrideLabel_getElem? { Name := o.Name, Value := o.Value } L i h
    rw [List.getElem?_eq_getElem hlen] at hstep
    rw [mergeLabels_cons, ih _ hlen, overrideEntry_cons, Option.some.inj hstep]

/-! ## The container walker -/

theorem setPullPolicies_loop (p : PullPolicy) (cs : List Container) (k : Nat)
    (hk : k ≤ cs.length) :
    ((List.range k).foldl (fun cs i =>
        match cs[i]? with
        | some c => cs.set i { c with ImagePullPolicy := p }
        | none => cs) cs).length = cs.length ∧
    ∀ j, ((List.range k).foldl (fun cs i =>
        match cs[i]? with
        | some c => cs.set i { c with ImagePullPolicy := p }
        | none => cs) cs)[j]? =
      if j < k then cs[j]?.map (fun c => { c with ImagePullPolicy := p }) else cs[j]? := by
  induction k with
  | zero => simp
  | succ k ih =>
    obtain ⟨hlen, hget⟩ := ih (Nat.le_of_succ_le hk)
    have hklt : k < cs.length := hk
    rw [List.range_succ, List.foldl_append, List.foldl_cons, List.foldl_nil]
    have hkk := hget k
    rw [if_neg (Nat.lt_irrefl k), List.getElem?_eq_getElem hklt] at hkk
    rw [hkk]
    refine ⟨by simp [hlen], ?_⟩
    intro j
    rw [List.getElem?_set, hlen]
    by_cases hj : k = j
    · subst hj
      simp [hklt, List.getElem?_eq_getElem hklt]
    · rw [if_neg hj, hget j]
      by_cases hjk : j < k
      · rw [if_pos hjk, if_pos (Nat.lt_succ_of_lt hjk)]
      · have : ¬ j < k + 1 := by omega
        rw [if_neg hjk, if_neg this]

theorem setPullPolicies_eq_map (p : PullPolicy) (cs : List Container) :
    setPullPolicies p cs = cs.map (fun c => { c with ImagePullPolicy := p }) := by
  apply List.ext_getElem?
  intro j
  rw [setPullPolicies, (setPullPolicies_loop p cs cs.length (Nat.le_refl _)).2 j,
    List.getElem?_map]
  by_cases hj : j < cs.length
  · rw [if_pos hj]
  · rw [if_neg hj, List.getElem?_eq_none (Nat.le_of_not_lt hj)]
    rfl

/-! ## The steps of `ApplyOverrides` in closed form -/

theorem applyForcePull_err (fp : Option Bool) (pod : Pod) (build : Build) :
    (applyForcePull fp pod build).2.2 = none := by
  rcases build with ⟨ns, nm, ⟨⟨d, s, c⟩, out⟩⟩
  cases fp with
  | none => rfl
  | some f =>
    cases d <;> cases s <;> cases c <;> simp [applyForcePull, applyPullPolicyToPod]

theorem applyForcePull_pod (fp : Option Bool) (pod : Pod) (build : Build) :
    (applyForcePull fp pod build).1 =
      match fp, build.Spec.Strategy.CustomStrategy with
      | some f, some _ => (applyPullPolicyToPod pod (if f then PullAlways else PullIfNotPresent)).1
      | _, _ => pod := by
  rcases build with ⟨ns, nm, ⟨⟨d, s, c⟩, out⟩⟩
  cases fp with
  | none => rfl
  | some f =>
    cases d <;> cases s <;> cases c <;> simp [applyForcePull, applyPullPolicyToPod]

theorem applyForcePull_build (fp : Option Bool) (pod : Pod) (build : Build) :
    (applyForcePull fp pod build).2.1 =
      match fp with
      | none => build
      | some f =>
        { build with
          Spec.Strategy.DockerStrategy :=
            build.Spec.Strategy.DockerStrategy.map (fun d => { d with ForcePull := f })
          Spec.Strategy.SourceStrategy :=
            build.Spec.Strategy.SourceStrategy.map (fun s => { s with ForcePull := f })
          Spec.Strategy.CustomStrategy :=
            build.Spec.Strategy.CustomStrategy.map (fun c => { c with ForcePull := f }) } := by
  rcases build with ⟨ns, nm, ⟨⟨d, s, c⟩, out⟩⟩
  cases fp with
  | none => rfl
  | some f =>
    cases d <;> cases s <;> cases c <;> simp [applyForcePull, applyPullPolicyToPod]

theorem nodeSelector_foldlM (O : List (String × String)) (pod : Pod) (m : GoMap)
    (h : pod.Spec.NodeSelector = some m) :
    O.foldlM (fun pod kv =>
      if TrimSpace kv.1 = LabelOSStable then some pod
      else (mapAssign pod.Spec.NodeSelector kv.1 kv.2).map
        (fun m => { pod with Spec.NodeSelector := m })) pod =
    some { pod with Spec.NodeSelector := some (O.foldl (fun m kv =>
      if TrimSpace kv.1 = LabelOSStable then m else m.insert kv.1 kv.2) m) } := by
  induction O generalizing pod m with
  | nil =>
    simp only [List.foldlM_nil, List.foldl_nil, ← h]
    rfl
  | cons kv O ih =>
    simp only [List.foldlM_cons, List.foldl_cons]
    by_cases ht : TrimSpace kv.1 = LabelOSStable
    · simp only [ht, if_true]
      exact ih pod m h
    · simp only [ht, if_false, h, mapAssign, Option.map_some']
      exact ih _ _ rfl

theorem applyNodeSelector_eq (O : List (String × String)) (pod : Pod) :
    applyNodeSelector O pod =
      some { pod with Spec.NodeSelector := nodeSelectorAfter O pod.Spec.NodeSelector } := by
  cases O with
  | nil => rfl
  | cons kv O =>
    unfold applyNodeSelector nodeSelectorAfter
    cases hN : pod.Spec.NodeSelector with
    | none =>
      simp only [List.length_cons, ne_eq, Nat.add_one_ne_zero, not_false_eq_true,
        Option.isNone_none, and_self, if_true]
      rw [nodeSelector_foldlM (kv :: O) _ ∅ rfl]
      rfl
    | some m =>
      simp only [Option.isNone_some, Bool.false_eq_true, and_false, if_false]
      rw [nodeSelector_foldlM (kv :: O) pod m hN]
      rfl

theorem annotations_foldlM (O : List (String × String)) (pod : Pod) (m : GoMap)
    (h : pod.Annotations = some m) :
    O.foldlM (fun pod kv =>
      (mapAssign pod.Annotations kv.1 kv.2).map (fun m => { pod with Annotations := m })) pod =
    some { pod with Annotations := some (O.foldl (fun m kv => m.insert kv.1 kv.2) m) } := by
  induction O generalizing pod m with
  | nil =>
    simp only [List.foldlM_nil, List.foldl_nil, ← h]
    rfl
  | cons kv O ih =>
    simp only [List.foldlM_cons, List.foldl_cons, h, mapAssign, Option.map_some']
    exact ih _ _ rfl

theorem applyAnnotations_eq (O : List (String × String)) (pod : Pod) :
    applyAnnotations O pod =
      some { pod with Annotations := annotationsAfter O pod.Annotations } := by
  cases O with
  | nil => rfl
  | cons kv O =>
    unfold applyAnnotations annotationsAfter
    cases hA : pod.Annotations with
    | none =>
      simp only [List.length_cons, ne_eq, Nat.add_one_ne_zero, not_false_eq_true,
        Option.isNone_none, and_self, if_true]
      rw [annotations_foldlM (kv :: O) _ ∅ rfl]
      rfl
    | some m =>
      simp only [Option.isNone_some, Bool.false_eq_true, and_false, if_false]
      rw [annotations_foldlM (kv :: O) pod m hA]
      rfl

theorem tolerations_foldl (O : List Toleration) (pod : Pod) :
    O.foldl (fun pod toleration =>
      { pod with Spec.Tolerations := pod.Spec.Tolerations ++ [toleration] }) pod =
    { pod with Spec.Tolerations := pod.Spec.Tolerations ++ O } := by
  induction O generalizing pod with
  | nil => simp
  | cons t O ih =>
    rw [List.foldl_cons, ih]
    simp

theorem applyTolerations_eq (O : List Toleration) (pod : Pod) :
    applyTolerations O pod =
      { pod with Spec.Tolerations := tolerationsAfter O pod.Spec.Tolerations } := by
  cases O with
  | nil => rfl
  | cons t O =>
    unfold applyTolerations tolerationsAfter
    simp only [List.length_cons, ne_eq, Nat.add_one_ne_zero, not_false_eq_true, if_true]
    rw [tolerations_foldl]
    simp

theorem ApplyOverrides_of_decoded (codec : BuildCodec) (b : BuildOverrides)
    (cfg : BuildOverridesConfig) (pod : Pod) (build : Build)
    (hcfg : b.Config = some cfg) (hget : codec.GetBuildFromPod pod = .ok build) :
    ApplyOverrides codec b pod =
      .returned
        (codec.SetBuildInPod (podAtEncode cfg pod build) (buildAtEncode cfg pod build)).1
        (codec.SetBuildInPod (podAtEncode cfg pod build) (buildAtEncode cfg pod build)).2 := by
  have herr := applyForcePull_err cfg.ForcePull pod build
  unfold ApplyOverrides
  simp only [hcfg, hget]
  rcases hfp : applyForcePull cfg.ForcePull pod build with ⟨p, bd, e⟩
  rw [hfp] at herr
  simp only at herr
  subst herr
  simp only [applyNodeSelector_eq, applyAnnotations_eq, applyTolerations_eq, podAtEncode,
    buildAtEncode, hfp]

theorem ApplyOverrides_of_decode_error (codec : BuildCodec) (b : BuildOverrides)
    (cfg : BuildOverridesConfig) (pod : Pod) (err : Error)
    (hcfg : b.Config = some cfg) (hget : codec.GetBuildFromPod pod = .error err) :
    ApplyOverrides codec b pod = .returned pod (some err) := by
  unfold ApplyOverrides
  simp only [hcfg, hget]

theorem ApplyOverrides_success (codec : BuildCodec) (b : BuildOverrides)
    (cfg : BuildOverridesConfig) (pod pod' : Pod)
    (hcfg : b.Config = some cfg) (hret : ApplyOverrides codec b pod = .returned pod' none) :
    ∃ build, codec.GetBuildFromPod pod = .ok build ∧
      (codec.SetBuildInPod (podAtEncode cfg pod build) (buildAtEncode cfg pod build)).1 = pod' ∧
      (codec.SetBuildInPod (podAtEncode cfg pod build) (buildAtEncode cfg pod build)).2 = none := by
  cases hget : codec.GetBuildFromPod pod with
  | error err =>
    rw [ApplyOverrides_of_decode_error codec b cfg pod err hcfg hget] at hret
    simp at hret
  | ok build =>
    rw [ApplyOverrides_of_decoded codec b cfg pod build hcfg hget] at hret
    injection hret with h1 h2
    exact ⟨build, rfl, h1, h2⟩

/-! ## The codec of the concrete runs -/

theorem specCodec_roundTrip : specCodec.RoundTrip := by
  intro pod build _
  rfl

theorem specCodec_writesCarrierOnly : specCodec.WritesCarrierOnly := by
  intro pod build
  rfl

/-! ## What line 95 finds -/

theorem buildAtEncode_labels (cfg : BuildOverridesConfig) (pod : Pod) (build : Build) :
    (buildAtEncode cfg pod build).Spec.Output.ImageLabels =
      mergeLabels cfg.ImageLabels build.Spec.Output.ImageLabels := by
  unfold buildAtEncode
  rw [applyImageLabels_eq, applyForcePull_build]
  cases cfg.ForcePull <;> rfl

theorem applyForcePull_pod_frame (fp : Option Bool) (pod : Pod) (build : Build) :
    (applyForcePull fp pod build).1.Spec.NodeSelector = pod.Spec.NodeSelector ∧
    (applyForcePull fp pod build).1.Spec.Tolerations = pod.Spec.Tolerations ∧
    (applyForcePull fp pod build).1.Annotations = pod.Annotations ∧
    (applyForcePull fp pod build).1.Carrier = pod.Carrier := by
  rw [applyForcePull_pod]
  cases fp <;> cases build.Spec.Strategy.CustomStrategy <;>
    simp [applyPullPolicyToPod]

theorem podAtEncode_nodeSelector (cfg : BuildOverridesConfig) (pod : Pod) (build : Build) :
    (podAtEncode cfg pod build).Spec.NodeSelector =
      nodeSelectorAfter cfg.NodeSelector pod.Spec.NodeSelector := by
  simp [podAtEncode, (applyForcePull_pod_frame cfg.ForcePull pod build).1]

theorem podAtEncode_tolerations (cfg : BuildOverridesConfig) (pod : Pod) (build : Build) :
    (podAtEncode cfg pod build).Spec.Tolerations =
      tolerationsAfter cfg.Tolerations pod.Spec.Tolerations := by
  simp [podAtEncode, (applyForcePull_pod_frame cfg.ForcePull pod build).2.1]

theorem podAtEncode_annotations (cfg : BuildOverridesConfig) (pod : Pod) (build : Build) :
    (podAtEncode cfg pod build).Annotations =
      annotationsAfter cfg.Annotations pod.Annotations := by
  simp [podAtEncode, (applyForcePull_pod_frame cfg.ForcePull pod build).2.2.1]

theorem podAtEncode_containers (cfg : BuildOverridesConfig) (pod : Pod) (build : Build) :
    (podAtEncode cfg pod build).Spec.InitContainers =
      (applyForcePull cfg.ForcePull pod build).1.Spec.InitContainers ∧
    (podAtEncode cfg pod build).Spec.Containers =
      (applyForcePull cfg.ForcePull pod build).1.Spec.Containers := by
  simp [podAtEncode]

theorem writesCarrierOnly_frame (codec : BuildCodec) (hco : codec.WritesCarrierOnly)
    (pod : Pod) (build : Build) :
    (codec.SetBuildInPod pod build).1.Spec = pod.Spec ∧
    (codec.SetBuildInPod pod build).1.Annotations = pod.Annotations := by
  have h := hco pod build
  constructor
  · rw [h]
  · rw [h]

/-! ## Claims about the labels -/

/-- C2: when `ApplyOverrides` applies the override labels `O` in configuration order (lines
57-65) to a build with labels `L`, then at every position `i` below the length of `L` the
resulting list has an entry with the name of `L[i]`; its value is the value of the last
entry of `O` with that name if there is one, and the entry is `L[i]` itself if `O` has no
entry with that name. -/
theorem applyImageLabels_positions (O : List ConfigImageLabel) (build : Build) (i : Nat)
    (h : i < build.Spec.Output.ImageLabels.length) :
    ((applyImageLabels O build).Spec.Output.ImageLabels[i]?.map (fun e => e.Name) =
        some build.Spec.Output.ImageLabels[i].Name) ∧
    (∀ O₁ o O₂, O = O₁ ++ o :: O₂ → o.Name = build.Spec.Output.ImageLabels[i].Name →
      (∀ x ∈ O₂, x.Name ≠ build.Spec.Output.ImageLabels[i].Name) →
      (applyImageLabels O build).Spec.Output.ImageLabels[i]?.map (fun e => e.Value) =
        some o.Value) ∧
    ((∀ o ∈ O, o.Name ≠ build.Spec.Output.ImageLabels[i].Name) →
      (applyImageLabels O build).Spec.Output.ImageLabels[i]? =
        some build.Spec.Output.ImageLabels[i]) := by
  have hR : (applyImageLabels O build).Spec.Output.ImageLabels[i]? =
      some (overrideEntry O build.Spec.Output.ImageLabels[i]) := by
    rw [applyImageLabels_eq]
    exact mergeLabels_getElem? O _ i h
  refine ⟨?_, ?_, ?_⟩
  · rw [hR, Option.map_some', overrideEntry_name]
  · intro O₁ o O₂ hO ho hrest
    rw [hR, hO, overrideEntry_last O₁ O₂ o _ ho hrest]
    rfl
  · intro hnone
    rw [hR, overrideEntry_of_not_mem O _ hnone]

/-- The run of C2 on scenario S4, at position 2: the second `A` entry takes the value 9 of
the only override named `A`, and the whole list is the one the scenario expects. -/
theorem applyImageLabels_positions_witness :
    2 < (buildWith dockerOnly labelsS4).Spec.Output.ImageLabels.length ∧
    (applyImageLabels overridesS4 (buildWith dockerOnly labelsS4)).Spec.Output.ImageLabels =
      mergedS4 ∧
    (applyImageLabels overridesS4 (buildWith dockerOnly labelsS4)).Spec.Output.ImageLabels[2]?.map
      (fun e => e.Value) = some "9" :=
  ⟨by decide, by decide,
    (applyImageLabels_positions overridesS4 (buildWith dockerOnly labelsS4) 2 (by decide)).2.1
      [] { Name := "A", Value := "9" } [{ Name := "C", Value := "7" }] rfl rfl (by decide)⟩

theorem overrideLabel_names_nodup (l : ImageLabel) (ls : List ImageLabel)
    (h : (ls.map (fun e => e.Name)).Nodup) :
    ((overrideLabel l ls).map (fun e => e.Name)).Nodup := by
  by_cases hm : ∃ e ∈ ls, e.Name = l.Name
  · rw [overrideLabel_of_mem l ls hm]
    have hnames : (ls.map (fun e => if e.Name = l.Name then l else e)).map (fun e => e.Name) =
        ls.map (fun e => e.Name) := by
      rw [List.map_map]
      apply List.map_congr_left
      intro e _
      by_cases he : e.Name = l.Name <;> simp [he]
    rw [hnames]
    exact h
  · have hn : ∀ e ∈ ls, e.Name ≠ l.Name := by
      intro e he hc
      exact hm ⟨e, he, hc⟩
    rw [overrideLabel_of_not_mem l ls hn, List.map_append, List.nodup_append]
    refine ⟨h, by simp, ?_⟩
    intro a ha hb
    simp only [List.map_cons, List.map_nil, List.mem_singleton] at hb
    obtain ⟨e, he, hea⟩ := List.mem_map.mp ha
    exact hn e he (hea.trans hb)

theorem mergeLabels_names_nodup (O : List ConfigImageLabel) (L : List ImageLabel)
    (h : (L.map (fun e => e.Name)).Nodup) :
    ((mergeLabels O L).map (fun e => e.Name)).Nodup := by
  induction O generalizing L with
  | nil => exact h
  | cons o O ih =>
    rw [mergeLabels_cons]
    exact ih _ (overrideLabel_names_nodup _ L h)

theorem ApplyOverrides_decodes (codec : BuildCodec) (hrt : codec.RoundTrip)
    (b : BuildOverrides) (cfg : BuildOverridesConfig) (pod pod' : Pod) (build : Build)
    (hcfg : b.Config = some cfg) (hget : codec.GetBuildFromPod pod = .ok build)
    (hret : ApplyOverrides codec b pod = .returned pod' none) :
    codec.GetBuildFromPod pod' = .ok (buildAtEncode cfg pod build) := by
  rw [ApplyOverrides_of_decoded codec b cfg pod build hcfg hget] at hret
  injection hret with h1 h2
  rw [← h1]
  exact hrt _ _ h2

/-- C3, as the code has it: if the labels of the build decoded from the pod have at most one
entry per name, and the codec reads back what it has written, then after a successful
`ApplyOverrides` the labels of the build in the pod have at most one entry per name. -/
theorem ApplyOverrides_labels_unique (codec : BuildCodec) (hrt : codec.RoundTrip)
    (b : BuildOverrides) (cfg : BuildOverridesConfig) (pod pod' : Pod) (build : Build)
    (hcfg : b.Config = some cfg) (hget : codec.GetBuildFromPod pod = .ok build)
    (hnodup : (build.Spec.Output.ImageLabels.map (fun e => e.Name)).Nodup)
    (hret : ApplyOverrides codec b pod = .returned pod' none) :
    ∃ build', codec.GetBuildFromPod pod' = .ok build' ∧
      (build'.Spec.Output.ImageLabels.map (fun e => e.Name)).Nodup := by
  refine ⟨_, ApplyOverrides_decodes codec hrt b cfg pod pod' build hcfg hget hret, ?_⟩
  rw [buildAtEncode_labels]
  exact mergeLabels_names_nodup _ _ hnodup

/-- The run of C3 on a build with the labels `A=1`, `B=2` and the overrides of scenario S4. -/
theorem ApplyOverrides_labels_unique_witness :
    ∃ build', specCodec.GetBuildFromPod
        { podCarrying (buildWith dockerOnly labelsUnique) with
          Carrier := .encoded (buildWith dockerOnly mergedUnique) } = .ok build' ∧
      (build'.Spec.Output.ImageLabels.map (fun e => e.Name)).Nodup :=
  ApplyOverrides_labels_unique specCodec specCodec_roundTrip
    { Config := some { emptyConfig with ImageLabels := overridesS4 } }
    { emptyConfig with ImageLabels := overridesS4 }
    (podCarrying (buildWith dockerOnly labelsUnique))
    { podCarrying (buildWith dockerOnly labelsUnique) with
      Carrier := .encoded (buildWith dockerOnly mergedUnique) }
    (buildWith dockerOnly labelsUnique) rfl rfl (by decide) rfl

/-- C3 fails as stated: on scenario S4 `ApplyOverrides` succeeds and the build it leaves in
the pod has two labels named `A`. -/
theorem ApplyOverrides_labels_not_unique :
    ApplyOverrides specCodec { Config := some { emptyConfig with ImageLabels := overridesS4 } }
        (podCarrying (buildWith dockerOnly labelsS4)) =
      .returned { podCarrying (buildWith dockerOnly labelsS4) with
        Carrier := .encoded (buildWith dockerOnly mergedS4) } none ∧
    specCodec.GetBuildFromPod { podCarrying (buildWith dockerOnly labelsS4) with
        Carrier := .encoded (buildWith dockerOnly mergedS4) } =
      .ok (buildWith dockerOnly mergedS4) ∧
    ¬ ((buildWith dockerOnly mergedS4).Spec.Output.ImageLabels.map (fun e => e.Name)).Nodup :=
  ⟨rfl, rfl, by decide⟩

/-! ## Claims about the node selector -/

theorem nodeSelector_foldl_lookup_of_skipped (O : List (String × String)) (m : GoMap)
    (k : String) (hk : k ∉ O.map Prod.fst ∨ TrimSpace k = LabelOSStable) :
    (O.foldl (fun m kv =>
      if TrimSpace kv.1 = LabelOSStable then m else m.insert kv.1 kv.2) m).lookup k =
    m.lookup k := by
  induction O generalizing m with
  | nil => rfl
  | cons kv O ih =>
    have hk' : k ∉ O.map Prod.fst ∨ TrimSpace k = LabelOSStable := by
      rcases hk with h | h
      · exact Or.inl (fun hc => h (by simp only [List.map_cons]; exact List.mem_cons_of_mem _ hc))
      · exact Or.inr h
    rw [List.foldl_cons, ih _ hk']
    by_cases ht : TrimSpace kv.1 = LabelOSStable
    · rw [if_pos ht]
    · rw [if_neg ht]
      apply Finmap.lookup_insert_of_ne
      intro hc
      rcases hk with h | h
      · exact h (by simp [hc])
      · exact ht (hc ▸ h)

theorem nodeSelector_foldl_lookup_of_written (O : List (String × String)) (m : GoMap)
    (k v : String) (hnodup : (O.map Prod.fst).Nodup) (hmem : (k, v) ∈ O)
    (hk : TrimSpace k ≠ LabelOSStable) :
    (O.foldl (fun m kv =>
      if TrimSpace kv.1 = LabelOSStable then m else m.insert kv.1 kv.2) m).lookup k =
    some v := by
  induction O generalizing m with
  | nil => simp at hmem
  | cons kv O ih =>
    rw [List.map_cons, List.nodup_cons] at hnodup
    rw [List.foldl_cons]
    rcases List.mem_cons.mp hmem with h | h
    · subst h
      rw [nodeSelector_foldl_lookup_of_skipped O _ k (Or.inl hnodup.1), if_neg hk]
      exact Finmap.lookup_insert _
    · exact ih _ hnodup.2 h

theorem mapLookup_nodeSelectorAfter_of_skipped (O : List (String × String))
    (N : Option GoMap) (k : String)
    (hk : k ∉ O.map Prod.fst ∨ TrimSpace k = LabelOSStable) :
    mapLookup (nodeSelectorAfter O N) k = mapLookup N k := by
  cases O with
  | nil => rfl
  | cons kv O =>
    simp only [nodeSelectorAfter, mapLookup]
    rw [nodeSelector_foldl_lookup_of_skipped (kv :: O) _ k hk]
    cases N with
    | none => simp
    | some m => rfl

theorem mapLookup_nodeSelectorAfter_of_written (O : List (String × String))
    (N : Option GoMap) (k v : String) (hnodup : (O.map Prod.fst).Nodup) (hmem : (k, v) ∈ O)
    (hk : TrimSpace k ≠ LabelOSStable) :
    mapLookup (nodeSelectorAfter O N) k = some v := by
  cases O with
  | nil => simp at hmem
  | cons kv O =>
    simp only [nodeSelectorAfter, mapLookup]
    exact nodeSelector_foldl_lookup_of_written (kv :: O) _ k v hnodup hmem hk

theorem ApplyOverrides_returned (codec : BuildCodec) (b : BuildOverrides) (pod pod' : Pod)
    (err : Option Error) (hret : ApplyOverrides codec b pod = .returned pod' err) :
    pod' = pod ∨ ∃ cfg build, b.Config = some cfg ∧ codec.GetBuildFromPod pod = .ok build ∧
      pod' = (codec.SetBuildInPod (podAtEncode cfg pod build) (buildAtEncode cfg pod build)).1 := by
  cases hcfg : b.Config with
  | none =>
    left
    unfold ApplyOverrides at hret
    simp only [hcfg] at hret
    injection hret with h1 _
    exact h1.symm
  | some cfg =>
    cases hget : codec.GetBuildFromPod pod with
    | error e =>
      left
      rw [ApplyOverrides_of_decode_error codec b cfg pod e hcfg hget] at hret
      injection hret with h1 _
      exact h1.symm
    | ok build =>
      right
      rw [ApplyOverrides_of_decoded codec b cfg pod build hcfg hget] at hret
      injection hret with h1 _
      exact ⟨cfg, build, rfl, rfl, h1.symm⟩

/-- C4: whatever the configuration, a key whose trimmed form is the reserved OS label key is
in the pod's node selector after `ApplyOverrides` only if that key was in it before the
call. The codec is assumed to write the carrier field only. -/
theorem ApplyOverrides_os_key_not_added (codec : BuildCodec) (hco : codec.WritesCarrierOnly)
    (b : BuildOverrides) (pod pod' : Pod) (err : Option Error)
    (hret : ApplyOverrides codec b pod = .returned pod' err)
    (k : String) (hk : TrimSpace k = LabelOSStable)
    (hin : mapLookup pod'.Spec.NodeSelector k ≠ none) :
    mapLookup pod.Spec.NodeSelector k ≠ none := by
  rcases ApplyOverrides_returned codec b pod pod' err hret with h | ⟨cfg, build, _, _, h⟩
  · rw [h] at hin
    exact hin
  · rw [h, (writesCarrierOnly_frame codec hco _ _).1, podAtEncode_nodeSelector,
      mapLookup_nodeSelectorAfter_of_skipped _ _ k (Or.inr hk)] at hin
    exact hin

/-- The run of C4 on a pod pinned to `kubernetes.io/os=windows` and an override that asks
for `kubernetes.io/os=linux` and `zone=east`: the key is still there, with its old value. -/
theorem ApplyOverrides_os_key_not_added_witness :
    mapLookup ((podPinned (buildWith dockerOnly [])).Spec.NodeSelector) "kubernetes.io/os" ≠
      none :=
  ApplyOverrides_os_key_not_added specCodec specCodec_writesCarrierOnly
    { Config := some { emptyConfig with
        NodeSelector := [("kubernetes.io/os", "linux"), ("zone", "east")] } }
    (podPinned (buildWith dockerOnly []))
    { podPinned (buildWith dockerOnly []) with
      Spec.NodeSelector :=
        some ((Finmap.singleton "kubernetes.io/os" "windows").insert "zone" "east") }
    none rfl "kubernetes.io/os" (by decide) (by decide)

/-- C5: after a successful `ApplyOverrides` with the override node selector `O` (a map, so
with pairwise distinct keys), every entry `k = v` of `O` whose trimmed key is not the
reserved one is in the pod's node selector under the untrimmed key `k`, and every other key
is bound exactly as it was before the call. The codec is assumed to write the carrier field
only. -/
theorem ApplyOverrides_nodeSelector (codec : BuildCodec) (hco : codec.WritesCarrierOnly)
    (b : BuildOverrides) (cfg : BuildOverridesConfig) (pod pod' : Pod)
    (hcfg : b.Config = some cfg) (hnodup : (cfg.NodeSelector.map Prod.fst).Nodup)
    (hret : ApplyOverrides codec b pod = .returned pod' none) (k : String) :
    (∀ v, (k, v) ∈ cfg.NodeSelector → TrimSpace k ≠ LabelOSStable →
      mapLookup pod'.Spec.NodeSelector k = some v) ∧
    ((k ∉ cfg.NodeSelector.map Prod.fst ∨ TrimSpace k = LabelOSStable) →
      mapLookup pod'.Spec.NodeSelector k = mapLookup pod.Spec.NodeSelector k) := by
  obtain ⟨build, _, hpod, _⟩ := ApplyOverrides_success codec b cfg pod pod' hcfg hret
  have hns : pod'.Spec.NodeSelector =
      nodeSelectorAfter cfg.NodeSelector pod.Spec.NodeSelector := by
    rw [← hpod, (writesCarrierOnly_frame codec hco _ _).1, podAtEncode_nodeSelector]
  rw [hns]
  exact ⟨fun v hv hk => mapLookup_nodeSelectorAfter_of_written _ _ k v hnodup hv hk,
    fun hk => mapLookup_nodeSelectorAfter_of_skipped _ _ k hk⟩

/-- The run of C5 on scenario S5: from an absent node selector and the override
`"  kubernetes.io/os  "=linux`, `zone=east` the pod gets the node selector `zone=east`; the
padded OS key is not bound. -/
theorem ApplyOverrides_nodeSelector_witness :
    mapLookup (some (Finmap.singleton "zone" "east")) "zone" = some "east" ∧
    mapLookup (some (Finmap.singleton "zone" "east")) "  kubernetes.io/os  " =
      mapLookup (podCarrying (buildWith dockerOnly [])).Spec.NodeSelector
        "  kubernetes.io/os  " :=
  ⟨(ApplyOverrides_nodeSelector specCodec specCodec_writesCarrierOnly
      { Config := some { emptyConfig with NodeSelector := nodeSelectorS5 } }
      { emptyConfig with NodeSelector := nodeSelectorS5 }
      (podCarrying (buildWith dockerOnly []))
      { podCarrying (buildWith dockerOnly []) with
        Spec.NodeSelector := some (Finmap.singleton "zone" "east") }
      rfl (by decide) rfl "zone").1 "east" (by decide) (by decide),
   (ApplyOverrides_nodeSelector specCodec specCodec_writesCarrierOnly
      { Config := some { emptyConfig with NodeSelector := nodeSelectorS5 } }
      { emptyConfig with NodeSelector := nodeSelectorS5 }
      (podCarrying (buildWith dockerOnly []))
      { podCarrying (buildWith dockerOnly []) with
        Spec.NodeSelector := some (Finmap.singleton "zone" "east") }
      rfl (by decide) rfl "  kubernetes.io/os  ").2 (Or.inr (by decide))⟩

/-! ## Claims about tolerations, ForcePull and the codec -/

/-- C6: after a successful `ApplyOverrides` the pod's tolerations are the override
tolerations, in order, when these are not empty (the old ones are dropped), and the pod's
old tolerations when the override has none. The codec is assumed to write the carrier field
only. -/
theorem ApplyOverrides_tolerations (codec : BuildCodec) (hco : codec.WritesCarrierOnly)
    (b : BuildOverrides) (cfg : BuildOverridesConfig) (pod pod' : Pod)
    (hcfg : b.Config = some cfg)
    (hret : ApplyOverrides codec b pod = .returned pod' none) :
    (cfg.Tolerations ≠ [] → pod'.Spec.Tolerations = cfg.Tolerations) ∧
    (cfg.Tolerations = [] → pod'.Spec.Tolerations = pod.Spec.Tolerations) := by
  obtain ⟨build, _, hpod, _⟩ := ApplyOverrides_success codec b cfg pod pod' hcfg hret
  have ht : pod'.Spec.Tolerations =
      tolerationsAfter cfg.Tolerations pod.Spec.Tolerations := by
    rw [← hpod, (writesCarrierOnly_frame codec hco _ _).1, podAtEncode_tolerations]
  rw [ht]
  constructor
  · intro hne
    cases hT : cfg.Tolerations with
    | nil => exact absurd hT hne
    | cons t T => rfl
  · intro he
    rw [he]
    rfl

/-- The run of C6 on scenario S6: the pod tolerates T1 and T2, the override is T3, and the
pod ends with T3 alone. -/
theorem ApplyOverrides_tolerations_witness :
    ([tolerationT3] ≠ [] → [tolerationT3] = [tolerationT3]) ∧
    ([tolerationT3] = [] →
      [tolerationT3] = (podCarrying (buildWith dockerOnly [])).Spec.Tolerations) :=
  ApplyOverrides_tolerations specCodec specCodec_writesCarrierOnly
    { Config := some { emptyConfig with Tolerations := [tolerationT3] } }
    { emptyConfig with Tolerations := [tolerationT3] }
    (podCarrying (buildWith dockerOnly []))
    { podCarrying (buildWith dockerOnly []) with Spec.Tolerations := [tolerationT3] }
    rfl rfl

theorem buildAtEncode_strategy (cfg : BuildOverridesConfig) (pod : Pod) (build : Build) :
    (buildAtEncode cfg pod build).Spec.Strategy =
      (applyForcePull cfg.ForcePull pod build).2.1.Spec.Strategy := by
  unfold buildAtEncode
  rw [applyImageLabels_eq]

/-- C7: when the build in the pod has a Custom strategy and the configuration sets ForcePull
to `f`, then after a successful `ApplyOverrides` every init container and every regular
container has the pull policy `Always` if `f` is true and `IfNotPresent` if it is false, and
the build read back from the pod has `CustomStrategy.ForcePull = f`. The codec is assumed to
write the carrier field only and to read back what it has written. -/
theorem ApplyOverrides_custom_forcePull (codec : BuildCodec) (hco : codec.WritesCarrierOnly)
    (hrt : codec.RoundTrip) (b : BuildOverrides) (cfg : BuildOverridesConfig)
    (pod pod' : Pod) (build : Build) (c : CustomBuildStrategy) (f : Bool)
    (hcfg : b.Config = some cfg) (hfp : cfg.ForcePull = some f)
    (hget : codec.GetBuildFromPod pod = .ok build)
    (hcustom : build.Spec.Strategy.CustomStrategy = some c)
    (hret : ApplyOverrides codec b pod = .returned pod' none) :
    (∀ x ∈ pod'.Spec.InitContainers,
      x.ImagePullPolicy = if f then PullAlways else PullIfNotPresent) ∧
    (∀ x ∈ pod'.Spec.Containers,
      x.ImagePullPolicy = if f then PullAlways else PullIfNotPresent) ∧
    ∃ build', codec.GetBuildFromPod pod' = .ok build' ∧
      build'.Spec.Strategy.CustomStrategy.map (fun s => s.ForcePull) = some f := by
  have hdec := ApplyOverrides_decodes codec hrt b cfg pod pod' build hcfg hget hret
  rw [ApplyOverrides_of_decoded codec b cfg pod build hcfg hget] at hret
  injection hret with hpod _
  have hspec : pod'.Spec = (podAtEncode cfg pod build).Spec := by
    rw [← hpod, (writesCarrierOnly_frame codec hco _ _).1]
  have hfpod : (applyForcePull cfg.ForcePull pod build).1 =
      (applyPullPolicyToPod pod (if f then PullAlways else PullIfNotPresent)).1 := by
    rw [applyForcePull_pod, hfp, hcustom]
  refine ⟨?_, ?_, _, hdec, ?_⟩
  · intro x hx
    rw [hspec, (podAtEncode_containers cfg pod build).1, hfpod] at hx
    simp only [applyPullPolicyToPod, setPullPolicies_eq_map, List.mem_map] at hx
    obtain ⟨y, _, hy⟩ := hx
    rw [← hy]
  · intro x hx
    rw [hspec, (podAtEncode_containers cfg pod build).2, hfpod] at hx
    simp only [applyPullPolicyToPod, setPullPolicies_eq_map, List.mem_map] at hx
    obtain ⟨y, _, hy⟩ := hx
    rw [← hy]
  · rw [buildAtEncode_strategy, applyForcePull_build, hfp]
    simp [hcustom]

/-- The run of C7 on scenario S3: ForcePull false on a Custom build; the three containers,
which had the policies `Always`, `Never` and none, all end with `IfNotPresent`. -/
theorem ApplyOverrides_custom_forcePull_witness :
    (∀ x ∈ [({ Name := "git-clone", Image := "builder", ImagePullPolicy := "IfNotPresent" } :
          Container),
        { Name := "manage-dockerfile", Image := "builder", ImagePullPolicy := "IfNotPresent" }],
      x.ImagePullPolicy = if false then PullAlways else PullIfNotPresent) ∧
    (∀ x ∈ [({ Name := "build", Image := "builder", ImagePullPolicy := "IfNotPresent" } :
          Container)],
      x.ImagePullPolicy = if false then PullAlways else PullIfNotPresent) ∧
    ∃ build', specCodec.GetBuildFromPod (podS3After) = .ok build' ∧
      build'.Spec.Strategy.CustomStrategy.map (fun s => s.ForcePull) = some false :=
  ApplyOverrides_custom_forcePull specCodec specCodec_writesCarrierOnly specCodec_roundTrip
    { Config := some { emptyConfig with ForcePull := some false } }
    { emptyConfig with ForcePull := some false }
    (podCarrying (buildWith customOnly [])) podS3After (buildWith customOnly [])
    { From := "builder", ForcePull := true } false rfl rfl rfl rfl rfl

/-- C8: when the build in the pod has no Custom strategy and the configuration sets
ForcePull to `f`, then after a successful `ApplyOverrides` the build read back from the pod
has `ForcePull = f` in its Docker strategy if it has one and in its Source strategy if it
has one, the init containers and the regular containers of the pod are as before the call
(so are their pull policies), and if the configuration sets nothing else the pod's
tolerations, annotations and node selector are as before too. The codec is assumed to write
the carrier field only and to read back what it has written. -/
theorem ApplyOverrides_docker_source_forcePull (codec : BuildCodec)
    (hco : codec.WritesCarrierOnly) (hrt : codec.RoundTrip) (b : BuildOverrides)
    (cfg : BuildOverridesConfig) (pod pod' : Pod) (build : Build) (f : Bool)
    (hcfg : b.Config = some cfg) (hfp : cfg.ForcePull = some f)
    (hget : codec.GetBuildFromPod pod = .ok build)
    (hcustom : build.Spec.Strategy.CustomStrategy = none)
    (hret : ApplyOverrides codec b pod = .returned pod' none) :
    (∃ build', codec.GetBuildFromPod pod' = .ok build' ∧
      (build.Spec.Strategy.DockerStrategy ≠ none →
        build'.Spec.Strategy.DockerStrategy.map (fun s => s.ForcePull) = some f) ∧
      (build.Spec.Strategy.SourceStrategy ≠ none →
        build'.Spec.Strategy.SourceStrategy.map (fun s => s.ForcePull) = some f)) ∧
    pod'.Spec.InitContainers = pod.Spec.InitContainers ∧
    pod'.Spec.Containers = pod.Spec.Containers ∧
    pod'.Spec.InitContainers.map (fun x => x.ImagePullPolicy) =
      pod.Spec.InitContainers.map (fun x => x.ImagePullPolicy) ∧
    pod'.Spec.Containers.map (fun x => x.ImagePullPolicy) =
      pod.Spec.Containers.map (fun x => x.ImagePullPolicy) ∧
    (cfg.ImageLabels = [] → cfg.NodeSelector = [] → cfg.Annotations = [] →
      cfg.Tolerations = [] →
      pod'.Spec.Tolerations = pod.Spec.Tolerations ∧ pod'.Annotations = pod.Annotations ∧
      pod'.Spec.NodeSelector = pod.Spec.NodeSelector) := by
  have hdec := ApplyOverrides_decodes codec hrt b cfg pod pod' build hcfg hget hret
  rw [ApplyOverrides_of_decoded codec b cfg pod build hcfg hget] at hret
  injection hret with hpod _
  have hspec : pod'.Spec = (podAtEncode cfg pod build).Spec := by
    rw [← hpod, (writesCarrierOnly_frame codec hco _ _).1]
  have hann : pod'.Annotations = (podAtEncode cfg pod build).Annotations := by
    rw [← hpod, (writesCarrierOnly_frame codec hco _ _).2]
  have hfpod : (applyForcePull cfg.ForcePull pod build).1 = pod := by
    rw [applyForcePull_pod, hfp, hcustom]
  have hinit : pod'.Spec.InitContainers = pod.Spec.InitContainers := by
    rw [hspec, (podAtEncode_containers cfg pod build).1, hfpod]
  have hcont : pod'.Spec.Containers = pod.Spec.Containers := by
    rw [hspec, (podAtEncode_containers cfg pod build).2, hfpod]
  refine ⟨⟨_, hdec, ?_, ?_⟩, hinit, hcont, by rw [hinit], by rw [hcont], ?_⟩
  · intro hd
    rw [buildAtEncode_strategy, applyForcePull_build, hfp]
    cases hD : build.Spec.Strategy.DockerStrategy with
    | none => exact absurd hD hd
    | some d => simp
  · intro hs
    rw [buildAtEncode_strategy, applyForcePull_build, hfp]
    cases hS : build.Spec.Strategy.SourceStrategy with
    | none => exact absurd hS hs
    | some d => simp
  · intro _ hN hA hT
    rw [hspec, hann, podAtEncode_tolerations, podAtEncode_annotations,
      podAtEncode_nodeSelector, hN, hA, hT]
    exact ⟨rfl, rfl, rfl⟩

/-- The run of C8 on scenario S2: ForcePull true on a Docker build whose ForcePull was
false. -/
theorem ApplyOverrides_docker_source_forcePull_witness :
    ApplyOverrides specCodec { Config := some { emptyConfig with ForcePull := some true } }
        (podCarrying (buildWith dockerOnly [])) = .returned podS2After none ∧
    (∃ build', specCodec.GetBuildFromPod podS2After = .ok build' ∧
      ((buildWith dockerOnly []).Spec.Strategy.DockerStrategy ≠ none →
        build'.Spec.Strategy.DockerStrategy.map (fun s => s.ForcePull) = some true) ∧
      ((buildWith dockerOnly []).Spec.Strategy.SourceStrategy ≠ none →
        build'.Spec.Strategy.SourceStrategy.map (fun s => s.ForcePull) = some true)) :=
  ⟨rfl, (ApplyOverrides_docker_source_forcePull specCodec specCodec_writesCarrierOnly
    specCodec_roundTrip
    { Config := some { emptyConfig with ForcePull := some true } }
    { emptyConfig with ForcePull := some true }
    (podCarrying (buildWith dockerOnly [])) podS2After (buildWith dockerOnly []) true
    rfl rfl rfl rfl rfl).1⟩

/-- C9: for a codec that reads back what it has written, after a successful `ApplyOverrides`
with a non-nil configuration the build decoded from the resulting pod is the build decoded
from the input pod with the ForcePull override and then the label overrides applied: the
build in memory when `SetBuildInPod`, the last step, is called. -/
theorem ApplyOverrides_round_trip (codec : BuildCodec) (hrt : codec.RoundTrip)
    (b : BuildOverrides) (cfg : BuildOverridesConfig) (pod pod' : Pod) (build : Build)
    (hcfg : b.Config = some cfg) (hget : codec.GetBuildFromPod pod = .ok build)
    (hret : ApplyOverrides codec b pod = .returned pod' none) :
    codec.GetBuildFromPod pod' =
      .ok (applyImageLabels cfg.ImageLabels (applyForcePull cfg.ForcePull pod build).2.1) :=
  ApplyOverrides_decodes codec hrt b cfg pod pod' build hcfg hget hret

/-- The run of C9 on a Docker build with the labels of scenario S4, with overrides for
ForcePull, the labels and an annotation. -/
theorem ApplyOverrides_round_trip_witness :
    specCodec.GetBuildFromPod podS9After =
      .ok (applyImageLabels configS9.ImageLabels
        (applyForcePull configS9.ForcePull (podCarrying (buildWith dockerOnly labelsS4))
          (buildWith dockerOnly labelsS4)).2.1) :=
  ApplyOverrides_round_trip specCodec specCodec_roundTrip { Config := some configS9 } configS9
    (podCarrying (buildWith dockerOnly labelsS4)) podS9After (buildWith dockerOnly labelsS4)
    rfl rfl rfl

/-- C10: with a non-nil configuration, if `GetBuildFromPod` fails on the pod then
`ApplyOverrides` returns that error and leaves the pod as it was given. -/
theorem ApplyOverrides_decode_failure (codec : BuildCodec) (b : BuildOverrides)
    (cfg : BuildOverridesConfig) (pod : Pod) (err : Error)
    (hcfg : b.Config = some cfg) (hget : codec.GetBuildFromPod pod = .error err) :
    ApplyOverrides codec b pod = .returned pod (some err) :=
  ApplyOverrides_of_decode_error codec b cfg pod err hcfg hget

/-- The run of C10 on a pod without a carrier and a configuration that overrides
everything. -/
theorem ApplyOverrides_decode_failure_witness :
    ApplyOverrides specCodec { Config := some configS9 } podWithoutBuild =
      .returned podWithoutBuild (some { msg := "CarrierMissing" }) :=
  ApplyOverrides_decode_failure specCodec { Config := some configS9 } configS9 podWithoutBuild
    { msg := "CarrierMissing" } rfl rfl

theorem ApplyOverrides_error_free (codec : BuildCodec) (b : BuildOverrides) (pod : Pod) :
    ApplyOverrides codec b pod ≠ .panicked := by
  cases hcfg : b.Config with
  | none =>
    unfold ApplyOverrides
    simp only [hcfg]
    simp
  | some cfg =>
    cases hget : codec.GetBuildFromPod pod with
    | error err =>
      rw [ApplyOverrides_of_decode_error codec b cfg pod err hcfg hget]
      simp
    | ok build =>
      rw [ApplyOverrides_of_decoded codec b cfg pod build hcfg hget]
      simp

/-! ## Claims about errors and the nil configuration -/

/-- C11: `ApplyOverrides` never panics, and it returns the error `e` exactly when the
configuration is not nil and either `GetBuildFromPod` fails on the input pod with `e` or it
succeeds and `SetBuildInPod`, called on the mutated pod and build, fails with `e`. No other
step yields an error. -/
theorem ApplyOverrides_error_iff (codec : BuildCodec) (b : BuildOverrides) (pod : Pod)
    (e : Error) :
    ApplyOverrides codec b pod ≠ .panicked ∧
    ((∃ pod', ApplyOverrides codec b pod = .returned pod' (some e)) ↔
      ∃ cfg, b.Config = some cfg ∧
        (codec.GetBuildFromPod pod = .error e ∨
          ∃ build, codec.GetBuildFromPod pod = .ok build ∧
            (codec.SetBuildInPod (podAtEncode cfg pod build)
              (buildAtEncode cfg pod build)).2 = some e)) := by
  cases hcfg : b.Config with
  | none =>
    have h : ApplyOverrides codec b pod = .returned pod none := by
      unfold ApplyOverrides
      simp only [hcfg]
    rw [h]
    refine ⟨by simp, ?_⟩
    constructor
    · rintro ⟨pod', hp⟩
      injection hp with _ h2
      exact absurd h2 (by simp)
    · rintro ⟨cfg, hc, _⟩
      exact absurd hc (by simp)
  | some cfg =>
    cases hget : codec.GetBuildFromPod pod with
    | error err =>
      rw [ApplyOverrides_of_decode_error codec b cfg pod err hcfg hget]
      refine ⟨by simp, ?_⟩
      constructor
      · rintro ⟨pod', hp⟩
        injection hp with _ h2
        injection h2 with h3
        exact ⟨cfg, rfl, Or.inl (by rw [h3])⟩
      · rintro ⟨cfg', _, h | ⟨build, hb, _⟩⟩
        · injection h with h3
          exact ⟨pod, by rw [h3]⟩
        · exact absurd hb (by simp)
    | ok build =>
      rw [ApplyOverrides_of_decoded codec b cfg pod build hcfg hget]
      refine ⟨by simp, ?_⟩
      constructor
      · rintro ⟨pod', hp⟩
        injection hp with _ h2
        exact ⟨cfg, rfl, Or.inr ⟨build, rfl, h2⟩⟩
      · rintro ⟨cfg', hc, h | ⟨build', hb, hs⟩⟩
        · exact absurd h (by simp)
        · injection hc with hc'
          injection hb with hb'
          subst hc' hb'
          exact ⟨_, by rw [hs]⟩

/-- C12: with a nil configuration `ApplyOverrides` returns the nil error and leaves the pod
as it was given, whatever the pod carries and whatever the codec would do with it. -/
theorem ApplyOverrides_nil_config (codec : BuildCodec) (pod : Pod) :
    ApplyOverrides codec { Config := none } pod = .returned pod none := by
  unfold ApplyOverrides
  rfl

/-! ## Claims about the annotations -/

theorem annotations_foldl_lookup_of_absent (O : List (String × String)) (m : GoMap)
    (k : String) (hk : k ∉ O.map Prod.fst) :
    (O.foldl (fun m kv => m.insert kv.1 kv.2) m).lookup k = m.lookup k := by
  induction O generalizing m with
  | nil => rfl
  | cons kv O ih =>
    rw [List.map_cons, List.mem_cons, not_or] at hk
    rw [List.foldl_cons, ih _ hk.2]
    exact Finmap.lookup_insert_of_ne _ hk.1

theorem annotations_foldl_lookup_of_written (O : List (String × String)) (m : GoMap)
    (k v : String) (hnodup : (O.map Prod.fst).Nodup) (hmem : (k, v) ∈ O) :
    (O.foldl (fun m kv => m.insert kv.1 kv.2) m).lookup k = some v := by
  induction O generalizing m with
  | nil => simp at hmem
  | cons kv O ih =>
    rw [List.map_cons, List.nodup_cons] at hnodup
    rw [List.foldl_cons]
    rcases List.mem_cons.mp hmem with h | h
    · subst h
      rw [annotations_foldl_lookup_of_absent O _ k hnodup.1]
      exact Finmap.lookup_insert _
    · exact ih _ hnodup.2 h

theorem mapLookup_annotationsAfter_of_absent (O : List (String × String))
    (A : Option GoMap) (k : String) (hk : k ∉ O.map Prod.fst) :
    mapLookup (annotationsAfter O A) k = mapLookup A k := by
  cases O with
  | nil => rfl
  | cons kv O =>
    simp only [annotationsAfter, mapLookup]
    rw [annotations_foldl_lookup_of_absent (kv :: O) _ k hk]
    cases A with
    | none => simp
    | some m => rfl

theorem mapLookup_annotationsAfter_of_written (O : List (String × String))
    (A : Option GoMap) (k v : String) (hnodup : (O.map Prod.fst).Nodup) (hmem : (k, v) ∈ O) :
    mapLookup (annotationsAfter O A) k = some v := by
  cases O with
  | nil => simp at hmem
  | cons kv O =>
    simp only [annotationsAfter, mapLookup]
    exact annotations_foldl_lookup_of_written (kv :: O) _ k v hnodup hmem

/-- C13: after a successful `ApplyOverrides` with the override annotations `O` (a map, so
with pairwise distinct keys), every entry `k = v` of `O` is in the pod's annotations,
whatever the key and whatever was bound to it before, and every key that `O` does not have
is bound exactly as it was before the call. The codec is assumed to write the carrier field
only. -/
theorem ApplyOverrides_annotations (codec : BuildCodec) (hco : codec.WritesCarrierOnly)
    (b : BuildOverrides) (cfg : BuildOverridesConfig) (pod pod' : Pod)
    (hcfg : b.Config = some cfg) (hnodup : (cfg.Annotations.map Prod.fst).Nodup)
    (hret : ApplyOverrides codec b pod = .returned pod' none) (k : String) :
    (∀ v, (k, v) ∈ cfg.Annotations → mapLookup pod'.Annotations k = some v) ∧
    (k ∉ cfg.Annotations.map Prod.fst →
      mapLookup pod'.Annotations k = mapLookup pod.Annotations k) := by
  obtain ⟨build, _, hpod, _⟩ := ApplyOverrides_success codec b cfg pod pod' hcfg hret
  have ha : pod'.Annotations = annotationsAfter cfg.Annotations pod.Annotations := by
    rw [← hpod, (writesCarrierOnly_frame codec hco _ _).2, podAtEncode_annotations]
  rw [ha]
  exact ⟨fun v hv => mapLookup_annotationsAfter_of_written _ _ k v hnodup hv,
    fun hk => mapLookup_annotationsAfter_of_absent _ _ k hk⟩

/-- The run of C13 on a pod annotated `a=1` and the overrides `a=2`, `owner=admin`: `a` is
overwritten, and the OS label key, which the node selector would skip, is written as an
annotation like any other key. -/
theorem ApplyOverrides_annotations_witness :
    mapLookup (some (((Finmap.singleton "a" "1").insert "a" "2").insert
      "kubernetes.io/os" "linux")) "a" = some "2" ∧
    mapLookup (some (((Finmap.singleton "a" "1").insert "a" "2").insert
      "kubernetes.io/os" "linux")) "kubernetes.io/os" = some "linux" :=
  ⟨(ApplyOverrides_annotations specCodec specCodec_writesCarrierOnly
      { Config := some { emptyConfig with
          Annotations := [("a", "2"), ("kubernetes.io/os", "linux")] } }
      { emptyConfig with Annotations := [("a", "2"), ("kubernetes.io/os", "linux")] }
      (podCarrying (buildWith dockerOnly []))
      { podCarrying (buildWith dockerOnly []) with
        Annotations := some (((Finmap.singleton "a" "1").insert "a" "2").insert
          "kubernetes.io/os" "linux") }
      rfl (by decide) rfl "a").1 "2" (by decide),
   (ApplyOverrides_annotations specCodec specCodec_writesCarrierOnly
      { Config := some { emptyConfig with
          Annotations := [("a", "2"), ("kubernetes.io/os", "linux")] } }
      { emptyConfig with Annotations := [("a", "2"), ("kubernetes.io/os", "linux")] }
      (podCarrying (buildWith dockerOnly []))
      { podCarrying (buildWith dockerOnly []) with
        Annotations := some (((Finmap.singleton "a" "1").insert "a" "2").insert
          "kubernetes.io/os" "linux") }
      rfl (by decide) rfl "kubernetes.io/os").1 "linux" (by decide)⟩

/-! ## Claims about the strategy variants and about nil maps -/

/-- C15: for a codec that reads back what it has written, after a successful
`ApplyOverrides` each of the three strategy variants is populated on the build in the pod
exactly if it was populated on the build decoded from the input pod, whether one, none or
several are; a configured ForcePull `f` is written into every populated variant and nothing
else of a variant changes, and without a configured ForcePull the strategy is untouched. -/
theorem ApplyOverrides_strategy_preserved (codec : BuildCodec) (hrt : codec.RoundTrip)
    (b : BuildOverrides) (cfg : BuildOverridesConfig) (pod pod' : Pod) (build : Build)
    (hcfg : b.Config = some cfg) (hget : codec.GetBuildFromPod pod = .ok build)
    (hret : ApplyOverrides codec b pod = .returned pod' none) :
    ∃ build', codec.GetBuildFromPod pod' = .ok build' ∧
      (build'.Spec.Strategy.DockerStrategy.isSome = build.Spec.Strategy.DockerStrategy.isSome ∧
        build'.Spec.Strategy.SourceStrategy.isSome = build.Spec.Strategy.SourceStrategy.isSome ∧
        build'.Spec.Strategy.CustomStrategy.isSome =
          build.Spec.Strategy.CustomStrategy.isSome) ∧
      (∀ f, cfg.ForcePull = some f →
        build'.Spec.Strategy.DockerStrategy =
          build.Spec.Strategy.DockerStrategy.map (fun d => { d with ForcePull := f }) ∧
        build'.Spec.Strategy.SourceStrategy =
          build.Spec.Strategy.SourceStrategy.map (fun d => { d with ForcePull := f }) ∧
        build'.Spec.Strategy.CustomStrategy =
          build.Spec.Strategy.CustomStrategy.map (fun d => { d with ForcePull := f })) ∧
      (cfg.ForcePull = none → build'.Spec.Strategy = build.Spec.Strategy) := by
  refine ⟨_, ApplyOverrides_decodes codec hrt b cfg pod pod' build hcfg hget hret, ?_, ?_, ?_⟩
  · rw [buildAtEncode_strategy, applyForcePull_build]
    cases cfg.ForcePull with
    | none => exact ⟨rfl, rfl, rfl⟩
    | some f => simp
  · intro f hf
    rw [buildAtEncode_strategy, applyForcePull_build, hf]
    exact ⟨rfl, rfl, rfl⟩
  · intro hf
    rw [buildAtEncode_strategy, applyForcePull_build, hf]

/-- The run of C15 on a build with both the Docker and the Custom strategy populated and
ForcePull true: both are still populated, both have ForcePull on, Source is still unset. -/
theorem ApplyOverrides_strategy_preserved_witness :
    ∃ build', specCodec.GetBuildFromPod podBothAfter = .ok build' ∧
      (build'.Spec.Strategy.DockerStrategy.isSome =
          (buildWith dockerAndCustom []).Spec.Strategy.DockerStrategy.isSome ∧
        build'.Spec.Strategy.SourceStrategy.isSome =
          (buildWith dockerAndCustom []).Spec.Strategy.SourceStrategy.isSome ∧
        build'.Spec.Strategy.CustomStrategy.isSome =
          (buildWith dockerAndCustom []).Spec.Strategy.CustomStrategy.isSome) ∧
      (∀ f, (some true : Option Bool) = some f →
        build'.Spec.Strategy.DockerStrategy =
          (buildWith dockerAndCustom []).Spec.Strategy.DockerStrategy.map
            (fun d => { d with ForcePull := f }) ∧
        build'.Spec.Strategy.SourceStrategy =
          (buildWith dockerAndCustom []).Spec.Strategy.SourceStrategy.map
            (fun d => { d with ForcePull := f }) ∧
        build'.Spec.Strategy.CustomStrategy =
          (buildWith dockerAndCustom []).Spec.Strategy.CustomStrategy.map
            (fun d => { d with ForcePull := f })) ∧
      ((some true : Option Bool) = none →
        build'.Spec.Strategy = (buildWith dockerAndCustom []).Spec.Strategy) :=
  ApplyOverrides_strategy_preserved specCodec specCodec_roundTrip
    { Config := some { emptyConfig with ForcePull := some true } }
    { emptyConfig with ForcePull := some true }
    (podCarrying (buildWith dockerAndCustom [])) podBothAfter (buildWith dockerAndCustom [])
    rfl rfl rfl

theorem nodeSelector_foldl_all_skipped (O : List (String × String)) (m : GoMap)
    (h : ∀ kv ∈ O, TrimSpace kv.1 = LabelOSStable) :
    O.foldl (fun m kv =>
      if TrimSpace kv.1 = LabelOSStable then m else m.insert kv.1 kv.2) m = m := by
  induction O generalizing m with
  | nil => rfl
  | cons kv O ih =>
    rw [List.foldl_cons, if_pos (h kv (List.mem_cons_self _ _))]
    exact ih m (fun x hx => h x (List.mem_cons_of_mem _ hx))

/-- C20: no run of `ApplyOverrides` writes into a nil map. The call never panics, and
neither the node selector step nor the annotation step does, whatever the pod and the
override map: when a loop body runs, the map has been allocated. A nil node selector
becomes an allocated empty map when the override is not empty and every key of it trims to
the reserved OS label key, and a nil node selector or nil annotations stay nil when the
override map is empty. -/
theorem ApplyOverrides_no_nil_map_write (codec : BuildCodec) (b : BuildOverrides) (pod : Pod)
    (O : List (String × String)) :
    ApplyOverrides codec b pod ≠ .panicked ∧
    applyNodeSelector O pod ≠ none ∧
    applyAnnotations O pod ≠ none ∧
    (pod.Spec.NodeSelector = none → O ≠ [] → (∀ kv ∈ O, TrimSpace kv.1 = LabelOSStable) →
      (applyNodeSelector O pod).map (fun p => p.Spec.NodeSelector) = some (some ∅)) ∧
    (pod.Spec.NodeSelector = none →
      (applyNodeSelector [] pod).map (fun p => p.Spec.NodeSelector) = some none) ∧
    (pod.Annotations = none →
      (applyAnnotations [] pod).map (fun p => p.Annotations) = some none) := by
  refine ⟨(ApplyOverrides_error_free codec b pod), ?_, ?_, ?_, ?_, ?_⟩
  · rw [applyNodeSelector_eq]
    simp
  · rw [applyAnnotations_eq]
    simp
  · intro hN hO hall
    rw [applyNodeSelector_eq, hN]
    cases O with
    | nil => exact absurd rfl hO
    | cons kv O =>
      simp only [nodeSelectorAfter, Option.map_some', Option.getD_none]
      rw [nodeSelector_foldl_all_skipped (kv :: O) ∅ hall]
  · intro hN
    rw [applyNodeSelector_eq, hN]
    rfl
  · intro hA
    rw [applyAnnotations_eq, hA]
    rfl

/-- C16: `applyPullPolicyToPod` returns the nil error; the pod it leaves has as many init
containers and as many regular containers as before, in the same order, each with the given
pull policy and with its other fields as before; and every other field of the pod is as
before. -/
theorem applyPullPolicyToPod_contract (pod : Pod) (p : PullPolicy) :
    (applyPullPolicyToPod pod p).2 = none ∧
    (applyPullPolicyToPod pod p).1.Spec.InitContainers.length =
      pod.Spec.InitContainers.length ∧
    (applyPullPolicyToPod pod p).1.Spec.Containers.length = pod.Spec.Containers.length ∧
    (∀ i (h : i < pod.Spec.InitContainers.length),
      (applyPullPolicyToPod pod p).1.Spec.InitContainers[i]? =
        some { Name := pod.Spec.InitContainers[i].Name,
               Image := pod.Spec.InitContainers[i].Image,
               ImagePullPolicy := p }) ∧
    (∀ i (h : i < pod.Spec.Containers.length),
      (applyPullPolicyToPod pod p).1.Spec.Containers[i]? =
        some { Name := pod.Spec.Containers[i].Name,
               Image := pod.Spec.Containers[i].Image,
               ImagePullPolicy := p }) ∧
    (applyPullPolicyToPod pod p).1.Namespace = pod.Namespace ∧
    (applyPullPolicyToPod pod p).1.Name = pod.Name ∧
    (applyPullPolicyToPod pod p).1.Annotations = pod.Annotations ∧
    (applyPullPolicyToPod pod p).1.Spec.NodeSelector = pod.Spec.NodeSelector ∧
    (applyPullPolicyToPod pod p).1.Spec.Tolerations = pod.Spec.Tolerations ∧
    (applyPullPolicyToPod pod p).1.Carrier = pod.Carrier := by
  refine ⟨rfl, ?_, ?_, ?_, ?_, rfl, rfl, rfl, rfl, rfl, rfl⟩
  · simp [applyPullPolicyToPod, setPullPolicies_eq_map]
  · simp [applyPullPolicyToPod, setPullPolicies_eq_map]
  · intro i h
    simp [applyPullPolicyToPod, setPullPolicies_eq_map, List.getElem?_eq_getElem h]
  · intro i h
    simp [applyPullPolicyToPod, setPullPolicies_eq_map, List.getElem?_eq_getElem h]

/-! ## The order of enumeration of the override maps -/

theorem nodeSelector_foldl_perm (O O' : List (String × String)) (m : GoMap)
    (hperm : O.Perm O') (hnodup : (O.map Prod.fst).Nodup) :
    O.foldl (fun m kv =>
      if TrimSpace kv.1 = LabelOSStable then m else m.insert kv.1 kv.2) m =
    O'.foldl (fun m kv =>
      if TrimSpace kv.1 = LabelOSStable then m else m.insert kv.1 kv.2) m := by
  have hnodup' : (O'.map Prod.fst).Nodup := ((hperm.map Prod.fst).nodup_iff).mp hnodup
  apply Finmap.ext_lookup
  intro k
  by_cases hk : k ∉ O.map Prod.fst ∨ TrimSpace k = LabelOSStable
  · have hk' : k ∉ O'.map Prod.fst ∨ TrimSpace k = LabelOSStable := by
      rcases hk with h | h
      · exact Or.inl (fun hc => h (((hperm.map Prod.fst).mem_iff).mpr hc))
      · exact Or.inr h
    rw [nodeSelector_foldl_lookup_of_skipped O m k hk,
      nodeSelector_foldl_lookup_of_skipped O' m k hk']
  · rw [not_or, not_not] at hk
    obtain ⟨⟨k', v⟩, hkv, hfst⟩ := List.mem_map.mp hk.1
    simp only at hfst
    subst hfst
    rw [nodeSelector_foldl_lookup_of_written O m k' v hnodup hkv hk.2,
      nodeSelector_foldl_lookup_of_written O' m k' v hnodup' (hperm.mem_iff.mp hkv) hk.2]

theorem annotations_foldl_perm (O O' : List (String × String)) (m : GoMap)
    (hperm : O.Perm O') (hnodup : (O.map Prod.fst).Nodup) :
    O.foldl (fun m kv => m.insert kv.1 kv.2) m =
    O'.foldl (fun m kv => m.insert kv.1 kv.2) m := by
  have hnodup' : (O'.map Prod.fst).Nodup := ((hperm.map Prod.fst).nodup_iff).mp hnodup
  apply Finmap.ext_lookup
  intro k
  by_cases hk : k ∉ O.map Prod.fst
  · have hk' : k ∉ O'.map Prod.fst := fun hc => hk (((hperm.map Prod.fst).mem_iff).mpr hc)
    rw [annotations_foldl_lookup_of_absent O m k hk,
      annotations_foldl_lookup_of_absent O' m k hk']
  · rw [not_not] at hk
    obtain ⟨⟨k', v⟩, hkv, hfst⟩ := List.mem_map.mp hk
    simp only at hfst
    subst hfst
    rw [annotations_foldl_lookup_of_written O m k' v hnodup hkv,
      annotations_foldl_lookup_of_written O' m k' v hnodup' (hperm.mem_iff.mp hkv)]

theorem nodeSelectorAfter_perm (O O' : List (String × String)) (N : Option GoMap)
    (hperm : O.Perm O') (hnodup : (O.map Prod.fst).Nodup) :
    nodeSelectorAfter O N = nodeSelectorAfter O' N := by
  cases O with
  | nil =>
    rw [List.nil_perm.mp hperm]
  | cons kv O =>
    cases O' with
    | nil => exact absurd (List.perm_nil.mp hperm) (by simp)
    | cons kv' O' =>
      simp only [nodeSelectorAfter]
      rw [nodeSelector_foldl_perm (kv :: O) (kv' :: O') _ hperm hnodup]

theorem annotationsAfter_perm (O O' : List (String × String)) (A : Option GoMap)
    (hperm : O.Perm O') (hnodup : (O.map Prod.fst).Nodup) :
    annotationsAfter O A = annotationsAfter O' A := by
  cases O with
  | nil =>
    rw [List.nil_perm.mp hperm]
  | cons kv O =>
    cases O' with
    | nil => exact absurd (List.perm_nil.mp hperm) (by simp)
    | cons kv' O' =>
      simp only [annotationsAfter]
      rw [annotations_foldl_perm (kv :: O) (kv' :: O') _ hperm hnodup]

/-- C17: the outcome of `ApplyOverrides` does not depend on the order in which `range`
enumerates the override node selector and the override annotations: for a configuration
whose two maps have pairwise distinct keys, and any permutations `ns` and `ann` of their
entries, the call with the maps enumerated as `ns` and `ann` ends exactly as the call with
the original enumeration, with the same pod and the same error, for every codec. -/
theorem ApplyOverrides_enumeration_order (codec : BuildCodec) (cfg : BuildOverridesConfig)
    (pod : Pod) (ns ann : List (String × String))
    (hns : cfg.NodeSelector.Perm ns) (hann : cfg.Annotations.Perm ann)
    (hnd₁ : (cfg.NodeSelector.map Prod.fst).Nodup)
    (hnd₂ : (cfg.Annotations.map Prod.fst).Nodup) :
    ApplyOverrides codec { Config := some { cfg with NodeSelector := ns, Annotations := ann } }
        pod =
      ApplyOverrides codec { Config := some cfg } pod := by
  cases hget : codec.GetBuildFromPod pod with
  | error err =>
    rw [ApplyOverrides_of_decode_error codec _ _ pod err rfl hget,
      ApplyOverrides_of_decode_error codec _ _ pod err rfl hget]
  | ok build =>
    rw [ApplyOverrides_of_decoded codec _ _ pod build rfl hget,
      ApplyOverrides_of_decoded codec _ _ pod build rfl hget]
    have hb : buildAtEncode { cfg with NodeSelector := ns, Annotations := ann } pod build =
        buildAtEncode cfg pod build := rfl
    have hp : podAtEncode { cfg with NodeSelector := ns, Annotations := ann } pod build =
        podAtEncode cfg pod build := by
      simp only [podAtEncode]
      rw [nodeSelectorAfter_perm cfg.NodeSelector ns _ hns hnd₁,
        annotationsAfter_perm cfg.Annotations ann _ hann hnd₂]
    rw [hb, hp]

/-- The run of C17 on scenario S5 with its two entries enumerated in either order. -/
theorem ApplyOverrides_enumeration_order_witness :
    ApplyOverrides specCodec
        { Config := some { { emptyConfig with NodeSelector := nodeSelectorS5 } with
            NodeSelector := nodeSelectorS5Swapped, Annotations := [] } }
        (podCarrying (buildWith dockerOnly [])) =
      ApplyOverrides specCodec
        { Config := some { emptyConfig with NodeSelector := nodeSelectorS5 } }
        (podCarrying (buildWith dockerOnly [])) :=
  ApplyOverrides_enumeration_order specCodec { emptyConfig with NodeSelector := nodeSelectorS5 }
    (podCarrying (buildWith dockerOnly [])) nodeSelectorS5Swapped []
    (List.Perm.swap _ _ _) (List.Perm.refl _) (by decide) (by decide)

/-! ## More about the merged label list -/

theorem mergeLabels_snoc (O : List ConfigImageLabel) (o : ConfigImageLabel)
    (L : List ImageLabel) :
    mergeLabels (O ++ [o]) L =
      overrideLabel { Name := o.Name, Value := o.Value } (mergeLabels O L) := by
  simp [mergeLabels, List.foldl_append]

theorem map_replace_names (l : ImageLabel) (ls : List ImageLabel) :
    (ls.map (fun e => if e.Name = l.Name then l else e)).map (fun e => e.Name) =
      ls.map (fun e => e.Name) := by
  rw [List.map_map]
  apply List.map_congr_left
  intro e _
  by_cases he : e.Name = l.Name <;> simp [he]

theorem overrideLabel_mem (l e : ImageLabel) (ls : List ImageLabel)
    (h : e ∈ overrideLabel l ls) : e = l ∨ (e ∈ ls ∧ e.Name ≠ l.Name) := by
  by_cases hm : ∃ x ∈ ls, x.Name = l.Name
  · rw [overrideLabel_of_mem l ls hm] at h
    obtain ⟨x, hx, hxe⟩ := List.mem_map.mp h
    by_cases hn : x.Name = l.Name
    · rw [if_pos hn] at hxe
      exact Or.inl hxe.symm
    · rw [if_neg hn] at hxe
      subst hxe
      exact Or.inr ⟨hx, hn⟩
  · have hn : ∀ x ∈ ls, x.Name ≠ l.Name := by
      intro x hx hc
      exact hm ⟨x, hx, hc⟩
    rw [overrideLabel_of_not_mem l ls hn] at h
    rcases List.mem_append.mp h with h1 | h1
    · exact Or.inr ⟨h1, hn e h1⟩
    · exact Or.inl (List.mem_singleton.mp h1)

theorem overrideLabel_names_mem (l : ImageLabel) (ls : List ImageLabel) (n : String) :
    n ∈ (overrideLabel l ls).map (fun e => e.Name) ↔
      n ∈ ls.map (fun e => e.Name) ∨ n = l.Name := by
  by_cases hm : ∃ x ∈ ls, x.Name = l.Name
  · rw [overrideLabel_of_mem l ls hm, map_replace_names]
    constructor
    · exact fun h => Or.inl h
    · rintro (h | h)
      · exact h
      · obtain ⟨x, hx, hxn⟩ := hm
        rw [h]
        exact List.mem_map.mpr ⟨x, hx, hxn⟩
  · have hn : ∀ x ∈ ls, x.Name ≠ l.Name := by
      intro x hx hc
      exact hm ⟨x, hx, hc⟩
    rw [overrideLabel_of_not_mem l ls hn]
    simp

theorem mergeLabels_entries_fixed (O : List ConfigImageLabel) (L : List ImageLabel) :
    ∀ e ∈ mergeLabels O L, overrideEntry O e = e := by
  induction O using List.reverseRecOn with
  | nil =>
    intro e _
    rfl
  | append_singleton O o ih =>
    intro e he
    rw [mergeLabels_snoc] at he
    rw [overrideEntry_append, overrideEntry_cons]
    rcases overrideLabel_mem _ e _ he with h | ⟨h, hne⟩
    · subst h
      rw [overrideEntry_name, if_pos rfl]
      rfl
    · rw [ih e h, if_neg hne]
      rfl

theorem mergeLabels_names_of_overrides (O : List ConfigImageLabel) (L : List ImageLabel) :
    ∀ o ∈ O, o.Name ∈ (mergeLabels O L).map (fun e => e.Name) := by
  induction O using List.reverseRecOn with
  | nil =>
    intro o ho
    simp at ho
  | append_singleton O x ih =>
    intro o ho
    rw [mergeLabels_snoc, overrideLabel_names_mem]
    rcases List.mem_append.mp ho with h | h
    · exact Or.inl (ih o h)
    · rw [List.mem_singleton.mp h]
      exact Or.inr rfl

theorem mergeLabels_of_present (O : List ConfigImageLabel) (R : List ImageLabel)
    (h : ∀ o ∈ O, o.Name ∈ R.map (fun e => e.Name)) :
    mergeLabels O R = R.map (overrideEntry O) := by
  induction O generalizing R with
  | nil =>
    have hid : R.map (overrideEntry []) = R := by
      conv_rhs => rw [← List.map_id R]
      exact List.map_congr_left (fun e _ => rfl)
    rw [hid]
    rfl
  | cons o O ih =>
    have ho : ∃ x ∈ R, x.Name = ({ Name := o.Name, Value := o.Value } : ImageLabel).Name := by
      obtain ⟨x, hx, hxn⟩ := List.mem_map.mp (h o (List.mem_cons_self _ _))
      exact ⟨x, hx, hxn⟩
    rw [mergeLabels_cons, overrideLabel_of_mem _ R ho, ih, List.map_map]
    · apply List.map_congr_left
      intro e _
      rfl
    · intro o₂ ho₂
      rw [map_replace_names]
      exact h o₂ (List.mem_cons_of_mem _ ho₂)

theorem mergeLabels_idempotent (O : List ConfigImageLabel) (L : List ImageLabel) :
    mergeLabels O (mergeLabels O L) = mergeLabels O L := by
  rw [mergeLabels_of_present O _ (mergeLabels_names_of_overrides O L)]
  conv_rhs => rw [← List.map_id (mergeLabels O L)]
  apply List.map_congr_left
  intro e he
  exact mergeLabels_entries_fixed O L e he

/-- C18: applying the override labels is idempotent. Running the label loop of
`ApplyOverrides` (lines 57-65) with the overrides `O` on the build it has already produced
from `O` gives that build again, also when `O` repeats names and when the build has
duplicate labels. -/
theorem applyImageLabels_idempotent (O : List ConfigImageLabel) (build : Build) :
    applyImageLabels O (applyImageLabels O build) = applyImageLabels O build := by
  rw [applyImageLabels_eq O (applyImageLabels O build), applyImageLabels_eq O build]
  simp only [mergeLabels_idempotent]

theorem overrideLabel_filter_of_ne (l : ImageLabel) (ls : List ImageLabel) (n : String)
    (hl : l.Name ≠ n) :
    (overrideLabel l ls).filter (fun e => decide (e.Name = n)) =
      ls.filter (fun e => decide (e.Name = n)) := by
  by_cases hm : ∃ x ∈ ls, x.Name = l.Name
  · rw [overrideLabel_of_mem l ls hm]
    clear hm
    induction ls with
    | nil => rfl
    | cons e rest ih =>
      by_cases he : e.Name = l.Name
      · have hen : ¬ e.Name = n := fun hc => hl (he ▸ hc)
        simp [he, hl, hen, ih]
      · by_cases hen : e.Name = n
        · have hnl : ¬ n = l.Name := fun hc => hl hc.symm
          simp [hen, hnl, ih]
        · simp [he, hen, ih]
  · have hn : ∀ x ∈ ls, x.Name ≠ l.Name := by
      intro x hx hc
      exact hm ⟨x, hx, hc⟩
    rw [overrideLabel_of_not_mem l ls hn, List.filter_append]
    simp [hl]

theorem mergeLabels_filter_of_not_mem (O : List ConfigImageLabel) (L : List ImageLabel)
    (n : String) (h : ∀ o ∈ O, o.Name ≠ n) :
    (mergeLabels O L).filter (fun e => decide (e.Name = n)) =
      L.filter (fun e => decide (e.Name = n)) := by
  induction O generalizing L with
  | nil => rfl
  | cons o O ih =>
    rw [mergeLabels_cons, ih _ (fun x hx => h x (List.mem_cons_of_mem _ hx)),
      overrideLabel_filter_of_ne _ L n (h o (List.mem_cons_self _ _))]

theorem filter_name_eq_nil (L : List ImageLabel) (n : String) (h : ∀ e ∈ L, e.Name ≠ n) :
    L.filter (fun e => decide (e.Name = n)) = [] := by
  rw [List.filter_eq_nil_iff]
  intro e he
  simp [h e he]

theorem mergeLabels_filter_of_once (O : List ConfigImageLabel) (L : List ImageLabel)
    (n : String) (o : ConfigImageLabel) (ho : o ∈ O) (hon : o.Name = n)
    (honce : (O.map (fun x => x.Name)).count n = 1) (hL : ∀ e ∈ L, e.Name ≠ n) :
    (mergeLabels O L).filter (fun e => decide (e.Name = n)) =
      [{ Name := n, Value := o.Value }] := by
  induction O generalizing L with
  | nil => simp at ho
  | cons x O ih =>
    rw [mergeLabels_cons]
    by_cases hx : x.Name = n
    · have hzero : (O.map (fun x => x.Name)).count n = 0 := by
        simpa [List.count_cons, hx] using honce
      have hnot : ∀ y ∈ O, y.Name ≠ n := by
        intro y hy hc
        exact (List.count_eq_zero.mp hzero) (List.mem_map.mpr ⟨y, hy, hc⟩)
      have hox : o = x := by
        rcases List.mem_cons.mp ho with h | h
        · exact h
        · exact absurd hon (hnot o h)
      subst hox
      have hnone : ∀ e ∈ L, e.Name ≠ ({ Name := o.Name, Value := o.Value } : ImageLabel).Name := by
        intro e he
        simpa [hon] using hL e he
      rw [mergeLabels_filter_of_not_mem O _ n hnot, overrideLabel_of_not_mem _ L hnone,
        List.filter_append, filter_name_eq_nil L n hL]
      simp [hon]
    · have hone : (O.map (fun x => x.Name)).count n = 1 := by
        simpa [List.count_cons, hx] using honce
      have hoO : o ∈ O := by
        rcases List.mem_cons.mp ho with h | h
        · exact absurd (h ▸ hon) hx
        · exact h
      apply ih _ hoO hone
      intro e he
      rcases overrideLabel_mem _ e L he with h | ⟨h, _⟩
      · rw [h]
        exact hx
      · exact hL e h

/-- C14: when a name occurs exactly once among the override labels `O`, on the entry `o`,
and on no label of the build, then after the label loop of `ApplyOverrides` (lines 57-65)
the entries of the build's label list with that name are exactly one entry, and it carries
the value of `o`. -/
theorem applyImageLabels_new_name (O : List ConfigImageLabel) (build : Build) (n : String)
    (o : ConfigImageLabel) (ho : o ∈ O) (hon : o.Name = n)
    (honce : (O.map (fun x => x.Name)).count n = 1)
    (hL : ∀ e ∈ build.Spec.Output.ImageLabels, e.Name ≠ n) :
    (applyImageLabels O build).Spec.Output.ImageLabels.filter (fun e => decide (e.Name = n)) =
      [{ Name := n, Value := o.Value }] := by
  rw [applyImageLabels_eq]
  exact mergeLabels_filter_of_once O _ n o ho hon honce hL

/-- The run of C14 on scenario S4 for the name `C`, which only the overrides have. -/
theorem applyImageLabels_new_name_witness :
    (applyImageLabels overridesS4 (buildWith dockerOnly labelsS4)).Spec.Output.ImageLabels.filter
        (fun e => decide (e.Name = "C")) =
      [{ Name := "C", Value := "7" }] :=
  applyImageLabels_new_name overridesS4 (buildWith dockerOnly labelsS4) "C"
    { Name := "C", Value := "7" } (by decide) rfl (by decide) (by decide)

/-! ## The appended labels -/

theorem mergeLabels_eq_append (O : List ConfigImageLabel) (L : List ImageLabel) :
    mergeLabels O L =
      L.map (overrideEntry O) ++ appendedLabels O (L.map (fun e => e.Name)) := by
  induction O generalizing L with
  | nil =>
    have hid : L.map (overrideEntry []) = L := by
      conv_rhs => rw [← List.map_id L]
      exact List.map_congr_left (fun e _ => rfl)
    rw [hid]
    simp [mergeLabels, appendedLabels]
  | cons o O ih =>
    rw [mergeLabels_cons]
    by_cases hm : o.Name ∈ L.map (fun e => e.Name)
    · have ho : ∃ x ∈ L, x.Name = ({ Name := o.Name, Value := o.Value } : ImageLabel).Name := by
        obtain ⟨x, hx, hxn⟩ := List.mem_map.mp hm
        exact ⟨x, hx, hxn⟩
      rw [overrideLabel_of_mem _ L ho, ih, map_replace_names, List.map_map]
      simp only [appendedLabels, if_pos hm]
      congr 1
    · have hn : ∀ x ∈ L, x.Name ≠ ({ Name := o.Name, Value := o.Value } : ImageLabel).Name := by
        intro x hx hc
        exact hm (List.mem_map.mpr ⟨x, hx, hc⟩)
      have hmap : L.map (overrideEntry (o :: O)) = L.map (overrideEntry O) := by
        apply List.map_congr_left
        intro e he
        rw [overrideEntry_cons, if_neg (hn e he)]
      rw [overrideLabel_of_not_mem _ L hn, ih, hmap]
      simp only [appendedLabels, if_neg hm, List.map_append, List.map_cons, List.map_nil,
        List.append_assoc, List.singleton_append]

theorem lastValue_snoc (O : List ConfigImageLabel) (o : ConfigImageLabel) (n : String) :
    lastValue (O ++ [o]) n = if o.Name = n then some o.Value else lastValue O n := by
  unfold lastValue
  rw [List.filter_append]
  by_cases h : o.Name = n
  · simp [h, List.getLast?_concat]
  · simp [h]

theorem lastValue_cons (O : List ConfigImageLabel) (o : ConfigImageLabel) (n : String) :
    lastValue (o :: O) n =
      match lastValue O n with
      | some v => some v
      | none => if o.Name = n then some o.Value else none := by
  unfold lastValue
  by_cases h : o.Name = n
  · rw [List.filter_cons_of_pos (by simpa using h), List.getLast?_cons]
    cases (O.filter (fun o => decide (o.Name = n))).getLast? <;> simp [h]
  · rw [List.filter_cons_of_neg (by simpa using h)]
    cases (O.filter (fun o => decide (o.Name = n))).getLast? <;> simp [h]

theorem lastValue_of_mem (O : List ConfigImageLabel) (n : String)
    (h : n ∈ O.map (fun o => o.Name)) : ∃ v, lastValue O n = some v := by
  obtain ⟨o, ho, hon⟩ := List.mem_map.mp h
  have hne : O.filter (fun o => decide (o.Name = n)) ≠ [] := by
    intro hc
    have : o ∈ O.filter (fun o => decide (o.Name = n)) :=
      List.mem_filter.mpr ⟨ho, by simpa using hon⟩
    rw [hc] at this
    simp at this
  unfold lastValue
  cases hl : (O.filter (fun o => decide (o.Name = n))).getLast? with
  | none => exact absurd (List.getLast?_eq_none_iff.mp hl) hne
  | some x => exact ⟨x.Value, rfl⟩

theorem lastValue_cons_of_mem (O : List ConfigImageLabel) (o : ConfigImageLabel) (n : String)
    (h : n ∈ O.map (fun o => o.Name)) : lastValue (o :: O) n = lastValue O n := by
  obtain ⟨v, hv⟩ := lastValue_of_mem O n h
  rw [lastValue_cons, hv]

theorem overrideEntry_eq_lastValue (O : List ConfigImageLabel) (e : ImageLabel) :
    overrideEntry O e = { Name := e.Name, Value := (lastValue O e.Name).getD e.Value } := by
  induction O using List.reverseRecOn with
  | nil => rfl
  | append_singleton O o ih =>
    rw [overrideEntry_append, overrideEntry_cons, ih, lastValue_snoc]
    by_cases h : e.Name = o.Name
    · simp [overrideEntry, h]
    · have h' : ¬ o.Name = e.Name := fun hc => h hc.symm
      simp [overrideEntry, h, h']

theorem distinctNames_mem (ns : List String) (x : String) :
    x ∈ distinctNames ns ↔ x ∈ ns := by
  induction ns with
  | nil => simp [distinctNames]
  | cons n ns ih =>
    simp only [distinctNames, List.mem_cons, List.mem_filter, ih, decide_eq_true_eq]
    constructor
    · rintro (h | ⟨h, _⟩)
      · exact Or.inl h
      · exact Or.inr h
    · rintro (h | h)
      · exact Or.inl h
      · by_cases hx : x = n
        · exact Or.inl hx
        · exact Or.inr ⟨h, hx⟩

theorem distinctNames_nodup (ns : List String) : (distinctNames ns).Nodup := by
  induction ns with
  | nil => simp [distinctNames]
  | cons n ns ih =>
    simp only [distinctNames, List.nodup_cons, List.mem_filter, decide_eq_true_eq]
    exact ⟨fun h => h.2 rfl, ih.filter _⟩

theorem appendedLabels_eq_spec (O : List ConfigImageLabel) (seen : List String) :
    appendedLabels O seen =
      ((distinctNames (O.map (fun o => o.Name))).filter (fun n => decide (n ∉ seen))).filterMap
        (fun n => (lastValue O n).map (fun v => { Name := n, Value := v })) := by
  induction O generalizing seen with
  | nil => rfl
  | cons o O ih =>
    have hcongr : ∀ l : List String, (∀ x ∈ l, x ∈ O.map (fun o => o.Name)) →
        l.filterMap (fun n => (lastValue (o :: O) n).map
          (fun v => ({ Name := n, Value := v } : ImageLabel))) =
        l.filterMap (fun n => (lastValue O n).map
          (fun v => ({ Name := n, Value := v } : ImageLabel))) := by
      intro l hl
      apply List.filterMap_congr
      intro x hx
      rw [lastValue_cons_of_mem O o x (hl x hx)]
    have hsub : ∀ (q : String → Bool),
        ∀ x ∈ (distinctNames (O.map (fun o => o.Name))).filter q,
          x ∈ O.map (fun o => o.Name) := by
      intro q x hx
      exact (distinctNames_mem _ x).mp (List.mem_filter.mp hx).1
    simp only [appendedLabels, List.map_cons, distinctNames]
    by_cases hm : o.Name ∈ seen
    · rw [if_pos hm, ih seen, List.filter_cons_of_neg (by simpa using hm), List.filter_filter,
        hcongr _ (hsub _)]
      congr 1
      apply List.filter_congr
      intro x _
      by_cases hx : x ∈ seen
      · simp [hx]
      · have hxo : x ≠ o.Name := fun hc => hx (hc ▸ hm)
        simp [hx, hxo]
    · have hself : lastValue (o :: O) o.Name = some ((lastValue O o.Name).getD o.Value) := by
        rw [lastValue_cons]
        cases lastValue O o.Name <;> simp
      rw [if_neg hm, ih (seen ++ [o.Name]), List.filter_cons_of_pos (by simpa using hm),
        List.filterMap_cons_some (by rw [hself]; rfl), List.filter_filter, hcongr _ (hsub _),
        overrideEntry_eq_lastValue]
      congr 2
      apply List.filter_congr
      intro x _
      by_cases hx : x ∈ seen <;> by_cases hxo : x = o.Name <;> simp [hx, hxo]

theorem length_filterMap_of_some {α β : Type} (f : α → Option β) (l : List α)
    (h : ∀ x ∈ l, ∃ y, f x = some y) : (l.filterMap f).length = l.length := by
  induction l with
  | nil => rfl
  | cons a l ih =>
    obtain ⟨y, hy⟩ := h a (List.mem_cons_self _ _)
    rw [List.filterMap_cons_some hy, List.length_cons, List.length_cons,
      ih (fun x hx => h x (List.mem_cons_of_mem _ hx))]

/-- C19: after the label loop of `ApplyOverrides` (lines 57-65) over the overrides `O` on a
build with the labels `L`, the entries behind position `|L|` are one entry for each distinct
name of `O` that `L` does not have, in the order in which these names first occur in `O`,
each with the value of the last entry of `O` with that name; and the list has `|L|` entries
plus one for each distinct name of `O` that `L` does not have. -/
theorem applyImageLabels_appended (O : List ConfigImageLabel) (build : Build) :
    (applyImageLabels O build).Spec.Output.ImageLabels.drop
        build.Spec.Output.ImageLabels.length =
      appendedBySpec O build.Spec.Output.ImageLabels ∧
    (applyImageLabels O build).Spec.Output.ImageLabels.length =
      build.Spec.Output.ImageLabels.length +
        ((O.map (fun o => o.Name)).toFinset.filter
          (fun n => n ∉ build.Spec.Output.ImageLabels.map (fun e => e.Name))).card := by
  have hR : (applyImageLabels O build).Spec.Output.ImageLabels =
      build.Spec.Output.ImageLabels.map (overrideEntry O) ++
        appendedBySpec O build.Spec.Output.ImageLabels := by
    rw [applyImageLabels_eq]
    simp only [mergeLabels_eq_append, appendedLabels_eq_spec, appendedBySpec]
  have hlen : (appendedBySpec O build.Spec.Output.ImageLabels).length =
      ((distinctNames (O.map (fun o => o.Name))).filter
        (fun n => decide (n ∉ build.Spec.Output.ImageLabels.map (fun e => e.Name)))).length := by
    unfold appendedBySpec
    apply length_filterMap_of_some
    intro x hx
    obtain ⟨v, hv⟩ := lastValue_of_mem O x
      ((distinctNames_mem _ x).mp (List.mem_filter.mp hx).1)
    exact ⟨_, by rw [hv]; rfl⟩
  have hcard : ((O.map (fun o => o.Name)).toFinset.filter
        (fun n => n ∉ build.Spec.Output.ImageLabels.map (fun e => e.Name))).card =
      ((distinctNames (O.map (fun o => o.Name))).filter
        (fun n => decide (n ∉ build.Spec.Output.ImageLabels.map (fun e => e.Name)))).length := by
    rw [← List.toFinset_card_of_nodup ((distinctNames_nodup _).filter _)]
    congr 1
    ext x
    simp [distinctNames_mem]
  constructor
  · rw [hR]
    have hl : build.Spec.Output.ImageLabels.length =
        (build.Spec.Output.ImageLabels.map (overrideEntry O)).length := by simp
    rw [hl, List.drop_left]
  · rw [hR, List.length_append, List.length_map, hlen, hcard]

end Overrides
